import Mathlib

/-!
Verification of the lightstep/varopt weighted reservoir sampler.

The Go source is shallowly embedded: slices become `List`s, `float64`
arithmetic on accepted (finite, positive) weights becomes exact `ℚ`
arithmetic, and the random number generator is threaded explicitly (each
`Add` receives the realized uniform draw `r` and the realized raw integer
draw used for `Intn`).  Indices `len(T)+len(X)-1` are Go `int`s, so they
are embedded as integers cast into `ℚ` (never truncated `Nat` subtraction).
A Go `panic` (out-of-range index, `Intn(0)`) is modelled by `Option`.
-/

namespace varopt

/-- A sample item paired with its weight, embedding Go `vsample`
(src/varopt.go). -/
structure Vsample (α : Type) where
  sample : α
  weight : ℚ
deriving DecidableEq, Repr

variable {α : Type}

/-- The weight stored at index `i` of a list of samples (0 when out of
range; all uses are in range). -/
def wAt (l : List (Vsample α)) (i : ℕ) : ℚ :=
  ((l[i]?).map Vsample.weight).getD 0

/-- Exchange the entries at positions `i` and `j`, embedding the Go
parallel assignment `l[i], l[j] = l[j], l[i]`. -/
def swapL (l : List (Vsample α)) (i j : ℕ) : List (Vsample α) :=
  match l[i]?, l[j]? with
  | some a, some b => (l.set i b).set j a
  | _, _ => l

/-- The loop of `largeHeap.push` (src/varopt.go lines 183-192, a copy of
`heap.up`): bubble the entry at index `j` toward the root.  The Go loop
breaks when `i == j`, which for `(j-1)/2` happens exactly at `j = 0`. -/
def siftUp (l : List (Vsample α)) : ℕ → List (Vsample α)
  | 0 => l
  | j + 1 =>
    -- parent index i = ((j+1)-1)/2 = j/2
    if wAt l (j + 1) ≥ wAt l (j / 2) then l
    else siftUp (swapL l (j / 2) (j + 1)) (j / 2)
termination_by j => j
decreasing_by omega

/-- `largeHeap.push` (src/varopt.go lines 179-195): append, then sift the
new last entry up. -/
def heapPush (l : List (Vsample α)) (v : Vsample α) : List (Vsample α) :=
  siftUp (l ++ [v]) l.length

/-- Length of a swap. -/
theorem swapL_length (l : List (Vsample α)) (i j : ℕ) :
    (swapL l i j).length = l.length := by
  unfold swapL
  match hi : l[i]?, hj : l[j]? with
  | some a, some b => simp
  | none, _ => simp
  | some a, none => simp

/-- The child of `i` selected by the loop of `largeHeap.pop`: the left
child `j1 = 2*i+1`, replaced by the right child `j2 = j1+1` exactly when
`j2 < n && l[j2].weight < l[j1].weight` (src/varopt.go lines 211-214). -/
def minChild (l : List (Vsample α)) (i : ℕ) : ℕ :=
  if 2 * i + 2 < l.length ∧ wAt l (2 * i + 2) < wAt l (2 * i + 1)
  then 2 * i + 2 else 2 * i + 1

/-- The loop of `largeHeap.pop` (src/varopt.go lines 204-220, a copy of
`heap.down`): sift the entry at index `i` down, descending into the
smaller child.  The Go guard `j1 < 0` only matters for `int` overflow and
cannot fire in `ℕ`. -/
def siftDown (l : List (Vsample α)) (i : ℕ) : List (Vsample α) :=
  if 2 * i + 1 < l.length then
    if wAt l (minChild l i) ≥ wAt l i then l
    else siftDown (swapL l i (minChild l i)) (minChild l i)
  else l
termination_by l.length - i
decreasing_by
  simp only [swapL_length, minChild]
  split <;> omega

/-- `largeHeap.pop` (src/varopt.go lines 197-224): save the root, move the
last entry to the root, truncate, and sift down from the root.  The Go
code indexes `l[0]` unconditionally and would panic on an empty heap;
that case is `none`. -/
def heapPop : List (Vsample α) → Option (Vsample α × List (Vsample α))
  | [] => none
  | x :: xs => some (x, siftDown ((xs.getLastD x :: xs).dropLast) 0)

/-- The binary min-heap ordering invariant on the backing list: each
entry is at least its parent. -/
def IsMinHeap (l : List (Vsample α)) : Prop :=
  ∀ j, j < l.length → 0 < j → wAt l ((j - 1) / 2) ≤ wAt l j

instance (l : List (Vsample α)) : Decidable (IsMinHeap l) := by
  unfold IsMinHeap; infer_instance

/-! ### Permutation and indexing lemmas for `swapL` -/

theorem cons_set_perm {β : Type} :
    ∀ (t : List β) (m : ℕ) (x : β) (h : m < t.length),
      List.Perm (t.get ⟨m, h⟩ :: t.set m x) (x :: t) := by
  intro t
  induction t with
  | nil => intro m x h; simp at h
  | cons y s ih =>
    intro m x h
    match m with
    | 0 => exact List.Perm.swap x y s
    | m + 1 =>
      have hm : m < s.length := by simpa using h
      have e : (y :: s).get ⟨m + 1, h⟩ :: (y :: s).set (m + 1) x
          = s.get ⟨m, hm⟩ :: y :: s.set m x := by simp
      rw [e]
      exact ((List.Perm.swap _ _ _).trans ((ih m x hm).cons y)).trans
        (List.Perm.swap _ _ _)

theorem set_set_perm {β : Type} :
    ∀ (l : List β) (i j : ℕ) (hi : i < l.length) (hj : j < l.length),
      List.Perm ((l.set i (l.get ⟨j, hj⟩)).set j (l.get ⟨i, hi⟩)) l := by
  intro l
  induction l with
  | nil => intro i j hi; simp at hi
  | cons x t ih =>
    intro i j hi hj
    match i, j with
    | 0, 0 => simp
    | 0, m + 1 =>
      have hm : m < t.length := by simpa using hj
      have e : ((x :: t).set 0 ((x :: t).get ⟨m + 1, hj⟩)).set (m + 1)
            ((x :: t).get ⟨0, hi⟩)
          = t.get ⟨m, hm⟩ :: t.set m x := by simp
      rw [e]
      exact cons_set_perm t m x hm
    | k + 1, 0 =>
      have hk : k < t.length := by simpa using hi
      have e : ((x :: t).set (k + 1) ((x :: t).get ⟨0, hj⟩)).set 0
            ((x :: t).get ⟨k + 1, hi⟩)
          = t.get ⟨k, hk⟩ :: t.set k x := by simp
      rw [e]
      exact cons_set_perm t k x hk
    | k + 1, m + 1 =>
      have hk : k < t.length := by simpa using hi
      have hm : m < t.length := by simpa using hj
      simpa using ((ih k m hk hm).cons x)

theorem swapL_perm (l : List (Vsample α)) (i j : ℕ) :
    List.Perm (swapL l i j) l := by
  unfold swapL
  match hi : l[i]?, hj : l[j]? with
  | some a, some b =>
    have hi' : i < l.length := by
      by_contra h
      rw [List.getElem?_eq_none (by omega)] at hi; exact Option.noConfusion hi
    have hj' : j < l.length := by
      by_contra h
      rw [List.getElem?_eq_none (by omega)] at hj; exact Option.noConfusion hj
    have ha : a = l.get ⟨i, hi'⟩ := by
      rw [List.getElem?_eq_getElem hi'] at hi
      simpa using hi.symm
    have hb : b = l.get ⟨j, hj'⟩ := by
      rw [List.getElem?_eq_getElem hj'] at hj
      simpa using hj.symm
    rw [ha, hb]
    exact set_set_perm l i j hi' hj'
  | none, _ => exact List.Perm.refl l
  | some a, none => exact List.Perm.refl l

theorem swapL_mem {l : List (Vsample α)} {i j : ℕ} {x : Vsample α} :
    x ∈ swapL l i j ↔ x ∈ l :=
  (swapL_perm l i j).mem_iff

theorem wAt_swapL (l : List (Vsample α)) {i j : ℕ} (hi : i < l.length)
    (hj : j < l.length) (k : ℕ) :
    wAt (swapL l i j) k =
      if k = j then wAt l i else if k = i then wAt l j else wAt l k := by
  have hi2 : l[i]? = some l[i] := List.getElem?_eq_getElem hi
  have hj2 : l[j]? = some l[j] := List.getElem?_eq_getElem hj
  unfold swapL
  rw [hi2, hj2]
  by_cases hkj : k = j
  · subst hkj
    rw [if_pos rfl, wAt, List.getElem?_set_self (by simpa using hj)]
    simp [wAt, hi2]
  · by_cases hki : k = i
    · subst hki
      rw [if_neg hkj, if_pos rfl, wAt,
        List.getElem?_set_ne (by omega), List.getElem?_set_self (by simpa using hi)]
      simp [wAt, hj2]
    · rw [if_neg hkj, if_neg hki, wAt, List.getElem?_set_ne (by omega),
        List.getElem?_set_ne (by omega)]
      rfl

theorem wAt_append_lt (l l' : List (Vsample α)) {k : ℕ} (h : k < l.length) :
    wAt (l ++ l') k = wAt l k := by
  rw [wAt, wAt, List.getElem?_append_left h]

/-! ### Heap correctness -/

/-- The root of a min-heap carries a minimal weight. -/
theorem isMinHeap_root_le {l : List (Vsample α)} (hl : IsMinHeap l) :
    ∀ k, k < l.length → wAt l 0 ≤ wAt l k := by
  intro k
  induction k using Nat.strong_induction_on with
  | _ k ih =>
    intro hk
    match k with
    | 0 => exact le_refl _
    | k + 1 =>
      have hp : (k + 1 - 1) / 2 < k + 1 := by omega
      exact le_trans (ih _ hp (by omega)) (hl (k + 1) hk (by omega))

/-- During sift-up with hole `h`: the heap ordering holds at every child
except `h` itself, and the children of `h` are bounded below by the
parent of `h`. -/
def HeapExceptUp (l : List (Vsample α)) (h : ℕ) : Prop :=
  (∀ c, c < l.length → 0 < c → c ≠ h → wAt l ((c - 1) / 2) ≤ wAt l c) ∧
  (∀ c, c < l.length → 0 < c → 0 < h → (c - 1) / 2 = h →
    wAt l ((h - 1) / 2) ≤ wAt l c)

theorem siftUp_perm : ∀ (j : ℕ) (l : List (Vsample α)),
    List.Perm (siftUp l j) l := by
  intro j
  induction j using Nat.strong_induction_on with
  | _ j ih =>
    intro l
    match j with
    | 0 => rw [siftUp]
    | j + 1 =>
      rw [siftUp]
      split
      · exact List.Perm.refl l
      · exact (ih (j / 2) (by omega) _).trans (swapL_perm l (j / 2) (j + 1))

theorem siftUp_length (j : ℕ) (l : List (Vsample α)) :
    (siftUp l j).length = l.length :=
  (siftUp_perm j l).length_eq

theorem siftUp_isMinHeap : ∀ (j : ℕ) (l : List (Vsample α)),
    j < l.length → HeapExceptUp l j → IsMinHeap (siftUp l j) := by
  intro j
  induction j using Nat.strong_induction_on with
  | _ j ih =>
    intro l hj hex
    match j with
    | 0 =>
      rw [siftUp]
      intro c hc hc0
      exact hex.1 c hc hc0 (by omega)
    | j + 1 =>
      rw [siftUp]
      have hi : j / 2 < l.length := by omega
      split
      · rename_i hge
        intro c hc hc0
        by_cases hcj : c = j + 1
        · subst hcj
          have e : (j + 1 - 1) / 2 = j / 2 := by omega
          rw [e]
          exact hge
        · exact hex.1 c hc hc0 hcj
      · rename_i hlt
        have hlt' : wAt l (j + 1) < wAt l (j / 2) := by
          have := lt_of_not_ge hlt
          exact this
        apply ih (j / 2) (by omega)
        · rw [swapL_length]; exact hi
        · constructor
          · -- ordering at every child except the new hole j/2
            intro c hc hc0 hci
            rw [swapL_length] at hc
            have hcp : (c - 1) / 2 < l.length := by omega
            rw [wAt_swapL l hi hj, wAt_swapL l hi hj]
            by_cases hcJ : c = j + 1
            · -- the swapped pair itself
              subst hcJ
              have e : (j + 1 - 1) / 2 = j / 2 := by omega
              rw [e, if_neg (by omega), if_pos rfl, if_pos rfl]
              exact le_of_lt hlt'
            · rw [if_neg hcJ, if_neg hci]
              by_cases hpJ : (c - 1) / 2 = j + 1
              · -- c is a child of the old hole j+1
                rw [if_pos hpJ]
                have e : (j + 1 - 1) / 2 = j / 2 := by omega
                have h2 := hex.2 c hc hc0 (by omega) hpJ
                rw [e] at h2
                exact h2
              · rw [if_neg hpJ]
                by_cases hpi : (c - 1) / 2 = j / 2
                · -- c is the sibling of the old hole
                  rw [if_pos hpi]
                  have h1 := hex.1 c hc hc0 hcJ
                  rw [hpi] at h1
                  exact le_trans (le_of_lt hlt') h1
                · rw [if_neg hpi]
                  exact hex.1 c hc hc0 hcJ
          · -- children of the new hole j/2 are above the parent of j/2
            intro c hc hc0 hh hpc
            rw [swapL_length] at hc
            have hq : (j / 2 - 1) / 2 < l.length := by omega
            have hqi : (j / 2 - 1) / 2 ≠ j / 2 := by omega
            have hqJ : (j / 2 - 1) / 2 ≠ j + 1 := by omega
            have hcgt : j / 2 < c := by omega
            rw [wAt_swapL l hi hj, wAt_swapL l hi hj, if_neg hqJ, if_neg hqi]
            by_cases hcJ : c = j + 1
            · subst hcJ
              rw [if_pos rfl]
              exact hex.1 (j / 2) hi hh (by omega)
            · rw [if_neg hcJ, if_neg (by omega)]
              exact le_trans (hex.1 (j / 2) hi hh (by omega))
                (by
                  have h1 := hex.1 c hc hc0 hcJ
                  rw [hpc] at h1
                  exact h1)

/-- `largeHeap.push` preserves the min-heap invariant. -/
theorem heapPush_isMinHeap {l : List (Vsample α)} (hl : IsMinHeap l)
    (v : Vsample α) : IsMinHeap (heapPush l v) := by
  apply siftUp_isMinHeap l.length (l ++ [v]) (by simp)
  constructor
  · intro c hc hc0 hcm
    simp only [List.length_append, List.length_cons, List.length_nil] at hc
    have hcl : c < l.length := by omega
    have hpl : (c - 1) / 2 < l.length := by omega
    rw [wAt_append_lt l [v] hcl, wAt_append_lt l [v] hpl]
    exact hl c hcl hc0
  · intro c hc hc0 hm hpc
    simp only [List.length_append, List.length_cons, List.length_nil] at hc
    omega

/-- `largeHeap.push` appends exactly the pushed element. -/
theorem heapPush_perm (l : List (Vsample α)) (v : Vsample α) :
    List.Perm (heapPush l v) (l ++ [v]) :=
  siftUp_perm l.length (l ++ [v])

theorem heapPush_length (l : List (Vsample α)) (v : Vsample α) :
    (heapPush l v).length = l.length + 1 := by
  have := (heapPush_perm l v).length_eq
  simpa using this

/-- During sift-down with hole `i`: the heap ordering holds at every edge
whose parent is not `i`, and the children of `i` are bounded below by the
parent of `i`. -/
def HeapExceptDown (l : List (Vsample α)) (i : ℕ) : Prop :=
  (∀ c, c < l.length → 0 < c → (c - 1) / 2 ≠ i →
    wAt l ((c - 1) / 2) ≤ wAt l c) ∧
  (0 < i → ∀ c, c < l.length → 0 < c → (c - 1) / 2 = i →
    wAt l ((i - 1) / 2) ≤ wAt l c)

theorem minChild_lt (l : List (Vsample α)) (i : ℕ)
    (h : 2 * i + 1 < l.length) :
    i < minChild l i ∧ minChild l i < l.length ∧ (minChild l i - 1) / 2 = i := by
  unfold minChild; split <;> omega

theorem minChild_min {l : List (Vsample α)} {i c : ℕ}
    (h : 2 * i + 1 < l.length) (hc : c < l.length) (hc0 : 0 < c)
    (hpc : (c - 1) / 2 = i) : wAt l (minChild l i) ≤ wAt l c := by
  have hc' : c = 2 * i + 1 ∨ c = 2 * i + 2 := by omega
  unfold minChild
  split
  · rename_i hcond
    rcases hc' with rfl | rfl
    · exact le_of_lt hcond.2
    · exact le_refl _
  · rename_i hcond
    rcases hc' with rfl | rfl
    · exact le_refl _
    · exact le_of_not_lt fun hh => hcond ⟨hc, hh⟩

theorem siftDown_perm_aux : ∀ (n : ℕ) (l : List (Vsample α)) (i : ℕ),
    l.length - i ≤ n → List.Perm (siftDown l i) l := by
  intro n
  induction n with
  | zero =>
    intro l i h
    rw [siftDown, if_neg (by omega)]
  | succ n ih =>
    intro l i h
    rw [siftDown]
    split
    · rename_i hrange
      split
      · exact List.Perm.refl l
      · obtain ⟨hij, hjn, _⟩ := minChild_lt l i hrange
        refine (ih _ _ ?_).trans (swapL_perm l i (minChild l i))
        rw [swapL_length]
        omega
    · exact List.Perm.refl l

theorem siftDown_perm (l : List (Vsample α)) (i : ℕ) :
    List.Perm (siftDown l i) l :=
  siftDown_perm_aux l.length l i (by omega)

theorem siftDown_isMinHeap_aux : ∀ (n : ℕ) (l : List (Vsample α)) (i : ℕ),
    l.length - i ≤ n → HeapExceptDown l i → IsMinHeap (siftDown l i) := by
  intro n
  induction n with
  | zero =>
    intro l i h hex
    rw [siftDown, if_neg (by omega)]
    intro c hc hc0
    exact hex.1 c hc hc0 (by omega)
  | succ n ih =>
    intro l i h hex
    rw [siftDown]
    split
    · rename_i hrange
      obtain ⟨hij, hjn, hpj⟩ := minChild_lt l i hrange
      split
      · rename_i hge
        intro c hc hc0
        by_cases hpc : (c - 1) / 2 = i
        · rw [hpc]
          exact le_trans hge (minChild_min hrange hc hc0 hpc)
        · exact hex.1 c hc hc0 hpc
      · rename_i hlt
        have hlt' : wAt l (minChild l i) < wAt l i := lt_of_not_ge hlt
        have hin : i < l.length := by omega
        apply ih (swapL l i (minChild l i)) (minChild l i)
          (by rw [swapL_length]; omega)
        constructor
        · -- ordering at every edge whose parent is not the new hole
          intro c hc hc0 hpc
          rw [swapL_length] at hc
          rw [wAt_swapL l hin hjn, wAt_swapL l hin hjn]
          by_cases hcj : c = minChild l i
          · subst hcj
            rw [if_pos rfl, hpj, if_neg (by omega), if_pos rfl]
            exact le_of_lt hlt'
          · rw [if_neg hcj]
            by_cases hci : c = i
            · subst hci
              have hc0' : 0 < c := hc0
              rw [if_pos rfl, if_neg (by omega), if_neg (by omega)]
              exact hex.2 hc0 (minChild l c) hjn (by omega) hpj
            · rw [if_neg hci]
              by_cases hpci : (c - 1) / 2 = i
              · rw [if_neg (by omega), if_pos hpci]
                exact minChild_min hrange hc hc0 hpci
              · rw [if_neg hpc, if_neg hpci]
                exact hex.1 c hc hc0 hpci
        · -- children of the new hole are above its parent (old hole i)
          intro hj0 c hc hc0 hpc
          rw [swapL_length] at hc
          have hcg : minChild l i < c := by omega
          rw [wAt_swapL l hin hjn, wAt_swapL l hin hjn, hpj,
            if_neg (by omega), if_pos rfl, if_neg (by omega), if_neg (by omega)]
          have h1 := hex.1 c hc hc0 (by omega)
          rw [hpc] at h1
          exact h1
    · rename_i hrange
      intro c hc hc0
      exact hex.1 c hc hc0 (by omega)

theorem siftDown_isMinHeap (l : List (Vsample α)) (i : ℕ)
    (hex : HeapExceptDown l i) : IsMinHeap (siftDown l i) :=
  siftDown_isMinHeap_aux l.length l i (by omega) hex

/-- `largeHeap.pop` on a nonempty heap succeeds, returns the root, and
the remainder is again a min-heap containing the other elements. -/
theorem heapPop_cons (x : Vsample α) (xs : List (Vsample α)) :
    heapPop (x :: xs) = some (x, siftDown ((xs.getLastD x :: xs).dropLast) 0) :=
  rfl

theorem heapPop_isMinHeap {l m : List (Vsample α)} {v : Vsample α}
    (hl : IsMinHeap l) (hp : heapPop l = some (v, m)) : IsMinHeap m := by
  match l with
  | [] => exact Option.noConfusion hp
  | x :: xs =>
    rw [heapPop_cons] at hp
    obtain ⟨rfl, rfl⟩ : x = v ∧ siftDown ((xs.getLastD x :: xs).dropLast) 0 = m := by
      constructor <;> [exact congrArg (·.1) (Option.some.inj hp);
        exact congrArg (·.2) (Option.some.inj hp)]
    apply siftDown_isMinHeap
    constructor
    · intro c hc hc0 hpc
      have hlen : ((xs.getLastD x :: xs).dropLast).length = xs.length := by
        simp
      rw [hlen] at hc
      have hw : ∀ k, 0 < k → k < xs.length →
          wAt ((xs.getLastD x :: xs).dropLast) k = wAt (x :: xs) k := by
        intro k hk0 hk
        rw [wAt, wAt, List.getElem?_dropLast, if_pos (by simp; omega)]
        match k, hk0 with
        | k + 1, _ => rfl
      rw [hw c hc0 hc, hw ((c - 1) / 2) (by omega) (by omega)]
      exact hl c (by simp; omega) hc0
    · intro h0
      exact absurd h0 (by omega)

theorem heapPop_perm {l m : List (Vsample α)} {v : Vsample α}
    (hp : heapPop l = some (v, m)) : List.Perm l (v :: m) := by
  match l with
  | [] => exact Option.noConfusion hp
  | x :: xs =>
    rw [heapPop_cons] at hp
    obtain ⟨rfl, rfl⟩ : x = v ∧ siftDown ((xs.getLastD x :: xs).dropLast) 0 = m := by
      constructor <;> [exact congrArg (·.1) (Option.some.inj hp);
        exact congrArg (·.2) (Option.some.inj hp)]
    apply List.Perm.cons
    refine List.Perm.symm ((siftDown_perm _ 0).trans ?_)
    match xs with
    | [] => exact List.Perm.refl []
    | y :: ys =>
      have hne : (y :: ys) ≠ [] := by simp
      have e1 : (y :: ys).getLastD x = (y :: ys).getLast hne := by
        rw [List.getLastD_eq_getLast?, List.getLast?_eq_getLast _ hne]
        rfl
      have e2 : ((y :: ys).getLast hne :: y :: ys).dropLast
          = (y :: ys).getLast hne :: (y :: ys).dropLast := by
        rw [List.dropLast_cons_of_ne_nil hne]
      rw [e1, e2]
      calc List.Perm ((y :: ys).getLast hne :: (y :: ys).dropLast)
            ((y :: ys).dropLast ++ [(y :: ys).getLast hne]) :=
        (List.perm_append_singleton _ _).symm
        _ = _ := List.dropLast_append_getLast hne

theorem heapPop_length {l m : List (Vsample α)} {v : Vsample α}
    (hp : heapPop l = some (v, m)) : m.length + 1 = l.length := by
  have := (heapPop_perm hp).length_eq
  simpa using this.symm

/-- The element returned by `pop` has minimal weight in the heap. -/
theorem heapPop_min {l m : List (Vsample α)} {v : Vsample α}
    (hl : IsMinHeap l) (hp : heapPop l = some (v, m)) :
    ∀ y ∈ l, v.weight ≤ y.weight := by
  intro y hy
  obtain ⟨k, hk, rfl⟩ := List.getElem_of_mem hy
  have hv : wAt l 0 = v.weight := by
    match l with
    | [] => exact Option.noConfusion hp
    | x :: xs =>
      rw [heapPop_cons] at hp
      have : x = v := congrArg (·.1) (Option.some.inj hp)
      rw [← this, wAt]
      simp
  have hwk : wAt l k = l[k].weight := by
    rw [wAt, List.getElem?_eq_getElem hk]
    rfl
  rw [← hv, ← hwk]
  exact isMinHeap_root_le hl k hk

/-! ### The Varopt sampler state and `Add` -/

/-- The sum of the weights of a list of samples. -/
def wSum (l : List (Vsample α)) : ℚ := (l.map Vsample.weight).sum

/-- The `Varopt` struct (src/varopt.go lines 15-36).  The random number
generator field is not part of the state: its draws are passed to `Add`
explicitly. -/
structure Varopt (α : Type) where
  L : List (Vsample α)
  T : List (Vsample α)
  X : List (Vsample α)
  tau : ℚ
  capacity : ℕ
  totalCount : ℕ
  totalWeight : ℚ
deriving DecidableEq, Repr

/-- `New` (src/varopt.go lines 52-57): all fields other than the capacity
are zero. -/
def New (capacity : ℕ) : Varopt α :=
  { L := [], T := [], X := [], tau := 0, capacity := capacity,
    totalCount := 0, totalWeight := 0 }

/-- `Size` (src/varopt.go lines 158-160). -/
def Varopt.Size (s : Varopt α) : ℕ := s.L.length + s.T.length

/-- `Capacity` (src/varopt.go lines 152-154). -/
def Varopt.Capacity (s : Varopt α) : ℕ := s.capacity

/-- `TotalWeight` (src/varopt.go lines 163-165). -/
def Varopt.TotalWeight (s : Varopt α) : ℚ := s.totalWeight

/-- `TotalCount` (src/varopt.go lines 168-170). -/
def Varopt.TotalCount (s : Varopt α) : ℕ := s.totalCount

/-- `Tau` (src/varopt.go lines 175-177). -/
def Varopt.Tau (s : Varopt α) : ℚ := s.tau

/-- The migration loop of `Add` (src/varopt.go line 90-94):
`for len(s.L) > 0 && W >= float64(len(s.T)+len(s.X)-1)*s.L[0].weight`
pop the heap minimum into `X`, adding its weight to `W`.  `tlen` is
`len(s.T)`, which the loop does not modify.  The `(tlen + |X| - 1)`
factor is Go `int` arithmetic, embedded by casting into `ℚ` before the
subtraction. -/
def popLoop (tlen : ℕ) (W : ℚ) (L X : List (Vsample α)) :
    ℚ × List (Vsample α) × List (Vsample α) :=
  if 0 < L.length ∧ W ≥ ((tlen : ℚ) + (X.length : ℚ) - 1) * wAt L 0 then
    match hp : heapPop L with
    | some (hd, L') => popLoop tlen (W + hd.weight) L' (X ++ [hd])
    | none => (W, L, X)
  else (W, L, X)
termination_by L.length
decreasing_by
  have := heapPop_length hp
  omega

/-- Steady-state preparation (src/varopt.go lines 81-94): initialize
`W = tau * len(T)`; push the new item into the heap when its weight
exceeds `tau`, otherwise append it to `X` adding its weight to `W`; then
run the migration loop.  Returns the final `(W, L, X)`. -/
def steadyPrep (s : Varopt α) (v : Vsample α) :
    ℚ × List (Vsample α) × List (Vsample α) :=
  if v.weight > s.tau then
    popLoop s.T.length (s.tau * (s.T.length : ℚ)) (heapPush s.L v) s.X
  else
    popLoop s.T.length (s.tau * (s.T.length : ℚ) + v.weight) s.L (s.X ++ [v])

/-- The eviction walk of `Add` (src/varopt.go lines 100-104):
`for d < len(s.X) && r >= 0 { r -= (1 - s.X[d].weight/s.tau); d++ }`.
Returns the final `r` and `d`. -/
def walkLoop (tau : ℚ) : ℚ → ℕ → List (Vsample α) → ℚ × ℕ
  | r, d, [] => (r, d)
  | r, d, x :: xs =>
    if r < 0 then (r, d)
    else walkLoop tau (r - (1 - x.weight / tau)) (d + 1) xs

/-- `uniform` (src/varopt.go lines 119-126): draw `Float64()` repeatedly
until the draw is not exactly 0.  The generator is an explicit stream of
draws; the Go loop terminates exactly when some draw is nonzero. -/
def uniform (floats : ℕ → ℚ) (h : ∃ i, floats i ≠ 0) : ℚ :=
  floats (Nat.find h)

/-- The eviction step of `Add` (src/varopt.go lines 97-116) given the
realized uniform draw `r` and the raw draw `tiRaw` behind
`rnd.Intn(len(s.T))` (used as `tiRaw % len(T)`; `Intn(0)` is a Go panic,
modelled as `none`).  Takes the prepared `(tau, L, X)` and the untouched
`T`; returns the new `T`, and the evicted sample.  The `r < 0` branch
with `X = []` would truncate an empty slice, a Go panic (`none`). -/
def evictStep (tau r : ℚ) (T X : List (Vsample α)) (tiRaw : ℕ) :
    Option (List (Vsample α) × Vsample α) :=
  match walkLoop tau r 0 X with
  | (rEnd, d) =>
    if rEnd < 0 then
      match hx : X.length with
      | 0 => none
      | _ + 1 =>
        let evicted := if h : d < X.length then X.get ⟨d, h⟩
          else X.get ⟨X.length - 1, by omega⟩
        let X' := if d < X.length then (swapL X d (X.length - 1)).dropLast
          else X.dropLast
        some (T ++ X', evicted)
    else
      match ht : T.length with
      | 0 => none
      | _ + 1 =>
        let evicted := T.get ⟨tiRaw % T.length, Nat.mod_lt _ (by omega)⟩
        let T' := (swapL T (tiRaw % T.length) (T.length - 1)).dropLast
        some (T' ++ X, evicted)

/-- `Add` (src/varopt.go lines 60-117) after the weight check, for one
realized uniform draw `r` and raw integer draw `tiRaw`.  A non-positive
weight is the Go panic at line 66-68 (`none`).  The returned second
component is the evicted sample handed back to the caller (the spec's
eviction-handback contract; the embedded revision discards it). -/
def Varopt.Add (s : Varopt α) (sample : α) (weight : ℚ) (r : ℚ) (tiRaw : ℕ) :
    Option (Varopt α × Option α) :=
  if weight ≤ 0 then none
  else
    let individual : Vsample α := ⟨sample, weight⟩
    let s1 := { s with totalCount := s.totalCount + 1,
                       totalWeight := s.totalWeight + weight }
    if s1.Size < s1.capacity then
      some ({ s1 with L := heapPush s1.L individual }, none)
    else
      match steadyPrep s1 individual with
      | (W, L', X') =>
        let tau' := W / ((s1.T.length : ℚ) + (X'.length : ℚ) - 1)
        match evictStep tau' r s1.T X' tiRaw with
        | none => none
        | some (T', evicted) =>
          some ({ s1 with L := L', T := T', X := [], tau := tau' },
            some evicted.sample)

/-- `Get` (src/varopt.go lines 131-137): indices below `len(L)` read the
heap's backing array with the stored weight; the rest read `T` with the
current `tau`.  An out-of-range index is a Go panic (`none`). -/
def Varopt.Get (s : Varopt α) (i : ℕ) : Option (α × ℚ) :=
  if i < s.L.length then (s.L[i]?).map fun x => (x.sample, x.weight)
  else (s.T[i - s.L.length]?).map fun x => (x.sample, s.tau)

/-- `GetOriginalWeight` (src/varopt.go lines 142-148): the stored weight
of the item at index `i`, from either pool. -/
def Varopt.GetOriginalWeight (s : Varopt α) (i : ℕ) : Option ℚ :=
  if i < s.L.length then (s.L[i]?).map Vsample.weight
  else (s.T[i - s.L.length]?).map Vsample.weight

/-- Modelled from the spec: `Reset()` is in the repository's current
revision, which is not among the embedded sources (only its tests are);
spec section 4.1: clears `L`, `T`, `X`, `tau`, `totalCount`,
`totalWeight`; `capacity` and random source unchanged (the random source
is not part of this state). -/
def Varopt.Reset (s : Varopt α) : Varopt α :=
  { L := [], T := [], X := [], tau := 0, capacity := s.capacity,
    totalCount := 0, totalWeight := 0 }

/-- One `Add` input: the sample, its weight, and the realized random
draws consumed by the call. -/
structure AddInput (α : Type) where
  sample : α
  weight : ℚ
  r : ℚ
  tiRaw : ℕ
deriving DecidableEq, Repr

/-- An input whose weight is accepted and whose uniform draw lies in the
open interval `(0, 1)` (the draw returned by `uniform` is never 0, and
`Float64` draws are below 1). -/
def ValidInput (a : AddInput α) : Prop :=
  0 < a.weight ∧ 0 < a.r ∧ a.r < 1

instance (a : AddInput α) : Decidable (ValidInput a) := by
  unfold ValidInput; infer_instance

/-- Run a sequence of `Add` calls. -/
def runAdds : Varopt α → List (AddInput α) → Option (Varopt α)
  | s, [] => some s
  | s, a :: rest =>
    match Varopt.Add s a.sample a.weight a.r a.tiRaw with
    | some (s', _) => runAdds s' rest
    | none => none

/-! ### Invariants of the migration loop -/

theorem wAt_cons_zero (x : Vsample α) (xs : List (Vsample α)) :
    wAt (x :: xs) 0 = x.weight := by
  simp [wAt]

theorem wSum_append_singleton (X : List (Vsample α)) (x : Vsample α) :
    wSum (X ++ [x]) = wSum X + x.weight := by
  simp [wSum]

theorem wSum_nonneg {X : List (Vsample α)} (h : ∀ x ∈ X, 0 < x.weight) :
    0 ≤ wSum X := by
  apply List.sum_nonneg
  intro q hq
  obtain ⟨x, hx, rfl⟩ := List.mem_map.mp hq
  exact le_of_lt (h x hx)

theorem wSum_pos {X : List (Vsample α)} (hne : X ≠ [])
    (h : ∀ x ∈ X, 0 < x.weight) : 0 < wSum X := by
  match X with
  | x :: xs =>
    have : wSum (x :: xs) = x.weight + wSum xs := by simp [wSum]
    rw [this]
    have := wSum_nonneg (fun y hy => h y (List.mem_cons_of_mem x hy))
    have := h x (List.mem_cons_self x xs)
    linarith

theorem isMinHeap_root_le_mem {l : List (Vsample α)} (hl : IsMinHeap l)
    {y : Vsample α} (hy : y ∈ l) : wAt l 0 ≤ y.weight := by
  obtain ⟨k, hk, rfl⟩ := List.getElem_of_mem hy
  have hwk : wAt l k = l[k].weight := by
    rw [wAt, List.getElem?_eq_getElem hk]; rfl
  rw [← hwk]
  exact isMinHeap_root_le hl k hk

/-- The invariant carried through the migration loop of `Add`, relative
to the threshold `tau` on entry and the fixed light-pool length `tlen`. -/
structure PrepInv (tau : ℚ) (tlen : ℕ) (W : ℚ) (L X : List (Vsample α)) :
    Prop where
  heap : IsMinHeap L
  Lgt : ∀ x ∈ L, tau < x.weight
  Xpos : ∀ x ∈ X, 0 < x.weight
  XleL : ∀ x ∈ X, ∀ y ∈ L, x.weight ≤ y.weight
  Xbound : ∀ x ∈ X, ((tlen : ℚ) + (X.length : ℚ) - 1) * x.weight ≤ W
  XsumLB : ((X.length : ℚ) - 1) * tau ≤ wSum X
  Weq : W = tau * (tlen : ℚ) + wSum X
  taunn : 0 ≤ tau

theorem popLoop_spec (tau : ℚ) (tlen : ℕ) :
    ∀ (n : ℕ) (W : ℚ) (L X : List (Vsample α)), L.length ≤ n →
      PrepInv tau tlen W L X →
      ∃ W' L' X', popLoop tlen W L X = (W', L', X') ∧
        PrepInv tau tlen W' L' X' ∧
        List.Perm (L ++ X) (L' ++ X') ∧
        X.length ≤ X'.length ∧
        (L' ≠ [] → W' < ((tlen : ℚ) + (X'.length : ℚ) - 1) * wAt L' 0) := by
  intro n
  induction n with
  | zero =>
    intro W L X hn hinv
    have hL : L = [] := List.length_eq_zero.mp (by omega)
    subst hL
    refine ⟨W, [], X, ?_, hinv, List.Perm.refl _, le_refl _, by simp⟩
    rw [popLoop, if_neg (by simp)]
  | succ n ih =>
    intro W L X hn hinv
    rw [popLoop]
    by_cases hcond : 0 < L.length ∧ W ≥ ((tlen : ℚ) + (X.length : ℚ) - 1) * wAt L 0
    · rw [if_pos hcond]
      obtain ⟨x, xs, rfl⟩ : ∃ x xs, L = x :: xs := by
        match L, hcond.1 with
        | x :: xs, _ => exact ⟨x, xs, rfl⟩
      · simp only [heapPop_cons]
        set L₂ := siftDown ((xs.getLastD x :: xs).dropLast) 0 with hL₂
        have hpop : heapPop (x :: xs) = some (x, L₂) := heapPop_cons x xs
        have hperm : List.Perm (x :: xs) (x :: L₂) := heapPop_perm hpop
        have hmemL₂ : ∀ y ∈ L₂, y ∈ x :: xs := fun y hy =>
          hperm.mem_iff.mpr (List.mem_cons_of_mem x hy)
        have hxmem : x ∈ x :: xs := List.mem_cons_self x xs
        have hxw : tau < x.weight := hinv.Lgt x hxmem
        have hroot : wAt (x :: xs) 0 = x.weight := wAt_cons_zero x xs
        have hWx : ((tlen : ℚ) + (X.length : ℚ) - 1) * x.weight ≤ W := by
          rw [← hroot]; exact hcond.2
        have hlen2 : L₂.length + 1 = xs.length + 1 := by
          have := heapPop_length hpop
          simpa using this
        have hinv2 : PrepInv tau tlen (W + x.weight) L₂ (X ++ [x]) := by
          constructor
          · exact heapPop_isMinHeap hinv.heap hpop
          · exact fun y hy => hinv.Lgt y (hmemL₂ y hy)
          · intro y hy
            rcases List.mem_append.mp hy with hy | hy
            · exact hinv.Xpos y hy
            · rw [List.mem_singleton.mp hy]
              exact lt_of_le_of_lt hinv.taunn hxw
          · intro y hy z hz
            rcases List.mem_append.mp hy with hy | hy
            · exact hinv.XleL y hy z (hmemL₂ z hz)
            · rw [List.mem_singleton.mp hy]
              exact heapPop_min hinv.heap hpop z (hmemL₂ z hz)
          · intro y hy
            have hlen : (((X ++ [x]).length : ℕ) : ℚ) = (X.length : ℚ) + 1 := by
              push_cast [List.length_append, List.length_cons, List.length_nil]
              ring
            rw [hlen]
            rcases List.mem_append.mp hy with hy | hy
            · have h1 := hinv.Xbound y hy
              have h2 := hinv.XleL y hy x hxmem
              nlinarith [h1, h2]
            · rw [List.mem_singleton.mp hy]
              nlinarith [hWx]
          · have hlen : (((X ++ [x]).length : ℕ) : ℚ) = (X.length : ℚ) + 1 := by
              push_cast [List.length_append, List.length_cons, List.length_nil]
              ring
            rw [hlen, wSum_append_singleton]
            have := hinv.XsumLB
            nlinarith [hxw]
          · rw [wSum_append_singleton, hinv.Weq]
            ring
          · exact hinv.taunn
        obtain ⟨W', L', X', heq, hinv', hperm', hxlen, hexit⟩ :=
          ih (W + x.weight) L₂ (X ++ [x])
            (by simp only [List.length_cons] at hn; omega) hinv2
        refine ⟨W', L', X', heq, hinv', ?_,
          by simp only [List.length_append, List.length_cons,
            List.length_nil] at hxlen ⊢; omega, hexit⟩
        have p1 : List.Perm ((x :: xs) ++ X) (x :: (L₂ ++ X)) :=
          hperm.append_right X
        have p2 : List.Perm (x :: (L₂ ++ X)) (L₂ ++ (X ++ [x])) := by
          have h := (List.perm_append_singleton x (L₂ ++ X)).symm
          rwa [List.append_assoc] at h
        exact (p1.trans p2).trans hperm'
    · rw [if_neg hcond]
      refine ⟨W, L, X, rfl, hinv, List.Perm.refl _, le_refl _, ?_⟩
      intro hL
      have h1 : 0 < L.length := List.length_pos.mpr hL
      rcases not_and_or.mp hcond with h | h
      · exact absurd h1 h
      · exact lt_of_not_ge h

/-- The specification of the steady-state preparation: it establishes the
loop invariant, permutes the former heap contents plus the new item into
the new heap and `X`, and on exit the heap minimum (if any) is too heavy
to migrate. -/
theorem steadyPrep_spec (s : Varopt α) (v : Vsample α)
    (hLgt : ∀ x ∈ s.L, s.tau < x.weight) (hheap : IsMinHeap s.L)
    (hXnil : s.X = []) (htau : 0 ≤ s.tau) (hw : 0 < v.weight) :
    ∃ W L' X', steadyPrep s v = (W, L', X') ∧
      PrepInv s.tau s.T.length W L' X' ∧
      List.Perm (s.L ++ [v]) (L' ++ X') ∧
      (L' ≠ [] → W < ((s.T.length : ℚ) + (X'.length : ℚ) - 1) * wAt L' 0) := by
  unfold steadyPrep
  rw [hXnil]
  by_cases hvt : v.weight > s.tau
  · rw [if_pos hvt]
    have hinv0 : PrepInv s.tau s.T.length (s.tau * (s.T.length : ℚ))
        (heapPush s.L v) [] := by
      constructor
      · exact heapPush_isMinHeap hheap v
      · intro y hy
        rcases List.mem_append.mp ((heapPush_perm s.L v).mem_iff.mp hy)
          with hy | hy
        · exact hLgt y hy
        · rw [List.mem_singleton.mp hy]; exact hvt
      · intro y hy; exact absurd hy (List.not_mem_nil y)
      · intro y hy; exact absurd hy (List.not_mem_nil y)
      · intro y hy; exact absurd hy (List.not_mem_nil y)
      · simp [wSum]; linarith
      · simp [wSum]
      · exact htau
    obtain ⟨W, L', X', heq, hinv, hperm, _, hexit⟩ :=
      popLoop_spec s.tau s.T.length (heapPush s.L v).length _ _ _
        (le_refl _) hinv0
    refine ⟨W, L', X', heq, hinv, ?_, hexit⟩
    have h0 : List.Perm (s.L ++ [v]) (heapPush s.L v ++ []) := by
      rw [List.append_nil]
      exact (heapPush_perm s.L v).symm
    exact h0.trans hperm
  · rw [if_neg hvt]
    have hvle : v.weight ≤ s.tau := not_lt.mp hvt
    have hinv0 : PrepInv s.tau s.T.length
        (s.tau * (s.T.length : ℚ) + v.weight) s.L ([] ++ [v]) := by
      constructor
      · exact hheap
      · exact hLgt
      · intro y hy
        have hyv : y = v := by simpa using hy
        rw [hyv]
        exact hw
      · intro y hy z hz
        have hyv : y = v := by simpa using hy
        rw [hyv]
        exact le_of_lt (lt_of_le_of_lt hvle (hLgt z hz))
      · intro y hy
        have hyv : y = v := by simpa using hy
        rw [hyv]
        simp only [List.nil_append, List.length_cons, List.length_nil]
        push_cast
        have h1 : (0 : ℚ) ≤ (s.T.length : ℚ) := Nat.cast_nonneg _
        nlinarith
      · simp [wSum]; linarith
      · simp [wSum]
      · exact htau
    obtain ⟨W, L', X', heq, hinv, hperm, _, hexit⟩ :=
      popLoop_spec s.tau s.T.length s.L.length _ _ _ (le_refl _) hinv0
    refine ⟨W, L', X', heq, hinv, ?_, hexit⟩
    simpa using hperm

/-! ### The eviction walk -/

/-- The total decrement applied by a complete walk over `X`. -/
def invTermSum (tau : ℚ) (X : List (Vsample α)) : ℚ :=
  (X.map (fun x => 1 - x.weight / tau)).sum

theorem invTermSum_eq (tau : ℚ) (X : List (Vsample α)) :
    invTermSum tau X = (X.length : ℚ) - wSum X / tau := by
  induction X with
  | nil => simp [invTermSum, wSum]
  | cons x xs ih =>
    have h1 : invTermSum tau (x :: xs) = (1 - x.weight / tau) +
        invTermSum tau xs := by simp [invTermSum]
    have h2 : wSum (x :: xs) = x.weight + wSum xs := by simp [wSum]
    rw [h1, h2, ih, add_div]
    push_cast [List.length_cons]
    ring

/-- If the walk ran to completion without `r` turning negative, then `r`
was at least the total decrement. -/
theorem walkLoop_complete_ge (tau : ℚ) :
    ∀ (X : List (Vsample α)) (r : ℚ) (d : ℕ),
      ¬ (walkLoop tau r d X).1 < 0 → invTermSum tau X ≤ r := by
  intro X
  induction X with
  | nil =>
    intro r d h
    have : invTermSum tau ([] : List (Vsample α)) = 0 := by simp [invTermSum]
    rw [this]
    simpa [walkLoop] using h
  | cons x xs ih =>
    intro r d h
    rw [walkLoop] at h
    by_cases hr : r < 0
    · rw [if_pos hr] at h
      exact absurd hr h
    · rw [if_neg hr] at h
      have := ih (r - (1 - x.weight / tau)) (d + 1) h
      have hsum : invTermSum tau (x :: xs) = (1 - x.weight / tau) +
          invTermSum tau xs := by simp [invTermSum]
      rw [hsum]
      linarith

/-- The sampler invariant: the heap holds exactly the items heavier than
`tau`, the light pool holds positive-weight items at most `tau`, the
working buffer is empty between calls, and the size tracks
`min(totalCount, capacity)` (with `tau` still zero while filling). -/
structure Inv (s : Varopt α) : Prop where
  Lgt : ∀ x ∈ s.L, s.tau < x.weight
  Tle : ∀ x ∈ s.T, 0 < x.weight ∧ x.weight ≤ s.tau
  taunn : 0 ≤ s.tau
  heap : IsMinHeap s.L
  Xnil : s.X = []
  size : s.Size = min s.totalCount s.capacity
  fill : s.Size < s.capacity → s.tau = 0

theorem Inv_New (capacity : ℕ) : Inv (New capacity : Varopt α) := by
  constructor <;> simp [New, Varopt.Size, IsMinHeap, wAt]

/-- When the walk drove `r` negative, the eviction removes one element
of `X` (by swap-with-last and truncation) and appends the rest to `T`. -/
theorem evictStep_spec_neg (tau r : ℚ) (T X : List (Vsample α)) (ti : ℕ)
    (hX : X ≠ []) (hneg : (walkLoop tau r 0 X).1 < 0) :
    ∃ X2 ev, evictStep tau r T X ti = some (T ++ X2, ev) ∧
      ev ∈ X ∧ X2.length + 1 = X.length ∧ ∀ x ∈ X2, x ∈ X := by
  obtain ⟨c, cs, rfl⟩ : ∃ c cs, X = c :: cs := by
    match X, hX with
    | c :: cs, _ => exact ⟨c, cs, rfl⟩
  unfold evictStep
  rcases hwk : walkLoop tau r 0 (c :: cs) with ⟨rEnd, d⟩
  have hr : rEnd < 0 := by rw [hwk] at hneg; exact hneg
  simp only [hwk, if_pos hr, List.length_cons]
  by_cases hd : d < (c :: cs).length
  · have hd' : d < cs.length + 1 := by simpa using hd
    rw [dif_pos hd', if_pos hd']
    refine ⟨_, _, rfl, List.get_mem _ _ _, ?_, ?_⟩
    · rw [List.length_dropLast, swapL_length]
      simp
    · intro x hx
      exact swapL_mem.mp ((List.dropLast_subset _) hx)
  · have hd' : ¬ d < cs.length + 1 := by simpa using hd
    rw [dif_neg hd', if_neg hd']
    refine ⟨_, _, rfl, List.get_mem _ _ _, ?_, ?_⟩
    · simp
    · intro x hx
      exact (List.dropLast_subset _) hx

/-- When the walk exhausted `X` with `r` still nonnegative, the eviction
removes one element of `T` (by swap-with-last and truncation) and appends
all of `X` to the remainder. -/
theorem evictStep_spec_pos (tau r : ℚ) (T X : List (Vsample α)) (ti : ℕ)
    (hT : T ≠ []) (hpos : ¬ (walkLoop tau r 0 X).1 < 0) :
    ∃ T2 ev, evictStep tau r T X ti = some (T2 ++ X, ev) ∧
      ev ∈ T ∧ T2.length + 1 = T.length ∧ ∀ x ∈ T2, x ∈ T := by
  obtain ⟨c, cs, rfl⟩ : ∃ c cs, T = c :: cs := by
    match T, hT with
    | c :: cs, _ => exact ⟨c, cs, rfl⟩
  unfold evictStep
  rcases hwk : walkLoop tau r 0 X with ⟨rEnd, d⟩
  have hr : ¬ rEnd < 0 := by rw [hwk] at hpos; exact hpos
  simp only [hwk, if_neg hr, List.length_cons]
  refine ⟨_, _, rfl, List.get_mem _ _ _, ?_, ?_⟩
  · rw [List.length_dropLast, swapL_length]
    simp
  · intro x hx
    exact swapL_mem.mp ((List.dropLast_subset _) hx)

/-- The master step lemma: an accepted `Add` on a sampler satisfying the
invariant, with capacity at least 1 and a uniform draw in `(0, 1)`,
completes without panic, preserves the invariant, bumps the counters,
never decreases `tau`, and only ever stores items that were added. -/
theorem Add_spec (s : Varopt α) (a : α) (w r : ℚ) (ti : ℕ)
    (hInv : Inv s) (hcap : 1 ≤ s.capacity) (hw : 0 < w)
    (hr0 : 0 < r) (hr1 : r < 1) :
    ∃ s' ev, Varopt.Add s a w r ti = some (s', ev) ∧ Inv s' ∧
      s'.capacity = s.capacity ∧
      s'.totalCount = s.totalCount + 1 ∧
      s'.totalWeight = s.totalWeight + w ∧
      s.tau ≤ s'.tau ∧
      (∀ x ∈ s'.L ++ s'.T, x ∈ s.L ++ s.T ∨ x = ⟨a, w⟩) ∧
      (¬ s.Size < s.capacity →
        ∃ W L' X', steadyPrep s ⟨a, w⟩ = (W, L', X') ∧ s'.L = L' ∧
          s'.X = [] ∧
          s'.tau = W / ((s.T.length : ℚ) + (X'.length : ℚ) - 1)) := by
  unfold Varopt.Add
  rw [if_neg (not_le.mpr hw)]
  dsimp only
  split
  · -- filling phase
    rename_i hlt'
    have hlt : s.Size < s.capacity := hlt'
    have hfill0 : s.tau = 0 := hInv.fill hlt
    refine ⟨_, _, rfl, ?_, rfl, rfl, rfl, le_refl _, ?_,
      fun hcon => absurd hlt hcon⟩
    · constructor
      · intro y hy
        rcases List.mem_append.mp
          ((heapPush_perm s.L ⟨a, w⟩).mem_iff.mp hy) with hy | hy
        · exact hInv.Lgt y hy
        · have : y = ⟨a, w⟩ := List.mem_singleton.mp hy
          rw [this, hfill0]
          exact hw
      · exact hInv.Tle
      · exact hInv.taunn
      · exact heapPush_isMinHeap hInv.heap _
      · exact hInv.Xnil
      · show (heapPush s.L _).length + s.T.length = _
        rw [heapPush_length]
        have h1 := hInv.size
        have h2 : s.Size = s.L.length + s.T.length := rfl
        show s.L.length + 1 + s.T.length =
          min (s.totalCount + 1) s.capacity
        omega
      · intro hlt2
        have h2 : (heapPush s.L ⟨a, w⟩).length + s.T.length < s.capacity :=
          hlt2
        rw [heapPush_length] at h2
        exact hInv.fill (by have : s.Size = s.L.length + s.T.length := rfl
                            omega)
    · intro y hy
      rcases List.mem_append.mp hy with hy | hy
      · rcases List.mem_append.mp
          ((heapPush_perm s.L ⟨a, w⟩).mem_iff.mp hy) with hy | hy
        · exact Or.inl (List.mem_append_left _ hy)
        · exact Or.inr (List.mem_singleton.mp hy)
      · exact Or.inl (List.mem_append_right _ hy)
  · -- steady state
    rename_i hge'
    have hlt : ¬ s.Size < s.capacity := hge'
    have hfull : s.Size = s.capacity := by
      have := hInv.size
      have h2 : s.Size = s.L.length + s.T.length := rfl
      omega
    obtain ⟨W, L', X', heq, hPrep, hperm, hexit⟩ :=
      steadyPrep_spec
        { s with totalCount := s.totalCount + 1,
                 totalWeight := s.totalWeight + w }
        ⟨a, w⟩ hInv.Lgt hInv.heap hInv.Xnil hInv.taunn hw
    rw [heq]
    dsimp only
    have hlenLX : L'.length + X'.length = s.L.length + 1 := by
      have h1 := hperm.length_eq
      simp only [List.length_append, List.length_cons, List.length_nil] at h1
      omega
    have hsz : s.L.length + s.T.length = s.capacity := hfull
    -- the divisor of the threshold update
    have hXnn : 0 ≤ wSum X' := wSum_nonneg hPrep.Xpos
    have hWnn : 0 ≤ W := by
      rw [hPrep.Weq]
      have : (0 : ℚ) ≤ s.tau * (s.T.length : ℚ) :=
        mul_nonneg hInv.taunn (Nat.cast_nonneg _)
      linarith
    have hdiv1 : 1 ≤ (s.T.length : ℚ) + (X'.length : ℚ) - 1 := by
      by_cases hL' : L' = []
      · have : X'.length = s.L.length + 1 := by
          rw [hL'] at hlenLX
          simpa using hlenLX
        have h2 : 2 ≤ s.T.length + X'.length := by omega
        have h3 : (2 : ℚ) ≤ ((s.T.length + X'.length : ℕ) : ℚ) := by
          exact_mod_cast h2
        push_cast at h3
        linarith
      · have hroot := hexit hL'
        have hrootpos : 0 < wAt L' 0 := by
          obtain ⟨y, ys, rfl⟩ : ∃ y ys, L' = y :: ys := by
            match L', hL' with
            | y :: ys, _ => exact ⟨y, ys, rfl⟩
          rw [wAt_cons_zero]
          exact lt_of_le_of_lt hInv.taunn
            (hPrep.Lgt y (List.mem_cons_self y ys))
        have hdivpos : 0 < (s.T.length : ℚ) + (X'.length : ℚ) - 1 := by
          nlinarith
        have h2 : 2 ≤ s.T.length + X'.length := by
          by_contra hcon
          have h3 : ((s.T.length + X'.length : ℕ) : ℚ) ≤ 1 := by
            exact_mod_cast Nat.lt_succ_iff.mp (by omega)
          push_cast at h3
          linarith
        have h3 : (2 : ℚ) ≤ ((s.T.length + X'.length : ℕ) : ℚ) := by
          exact_mod_cast h2
        push_cast at h3
        linarith
    have hdivpos : (0 : ℚ) < (s.T.length : ℚ) + (X'.length : ℚ) - 1 := by
      linarith
    have htauge : s.tau ≤ W / ((s.T.length : ℚ) + (X'.length : ℚ) - 1) := by
      rw [le_div_iff hdivpos]
      have h1 := hPrep.XsumLB
      have h2 := hPrep.Weq
      nlinarith
    have htaupos : 0 < W / ((s.T.length : ℚ) + (X'.length : ℚ) - 1) := by
      apply div_pos _ hdivpos
      by_cases hX' : X' = []
      · have hT2 : 2 ≤ s.T.length := by
          rw [hX'] at hdiv1
          simp only [List.length_nil, Nat.cast_zero, add_zero] at hdiv1
          by_contra hcon
          have h3 : ((s.T.length : ℕ) : ℚ) ≤ 1 := by
            exact_mod_cast Nat.lt_succ_iff.mp (by omega)
          linarith
        obtain ⟨t, ts, hT⟩ : ∃ t ts, s.T = t :: ts := by
          match hT3 : s.T, hT2 with
          | t :: ts, _ => exact ⟨t, ts, rfl⟩
        have htpos := hInv.Tle t (by rw [hT]; exact List.mem_cons_self t ts)
        have htaupos' : 0 < s.tau := lt_of_lt_of_le htpos.1 htpos.2
        rw [hPrep.Weq, hX']
        have : wSum ([] : List (Vsample α)) = 0 := by simp [wSum]
        rw [this]
        have : (1 : ℚ) ≤ (s.T.length : ℚ) := by
          have : (2 : ℚ) ≤ (s.T.length : ℚ) := by exact_mod_cast hT2
          linarith
        nlinarith
      · have := wSum_pos hX' hPrep.Xpos
        rw [hPrep.Weq]
        have : (0 : ℚ) ≤ s.tau * (s.T.length : ℚ) :=
          mul_nonneg hInv.taunn (Nat.cast_nonneg _)
        linarith
    have hXle : ∀ x ∈ X',
        x.weight ≤ W / ((s.T.length : ℚ) + (X'.length : ℚ) - 1) := by
      intro x hx
      rw [le_div_iff hdivpos]
      have := hPrep.Xbound x hx
      linarith [mul_comm x.weight ((s.T.length : ℚ) + (X'.length : ℚ) - 1)]
    have hLgt' : ∀ y ∈ L',
        W / ((s.T.length : ℚ) + (X'.length : ℚ) - 1) < y.weight := by
      intro y hy
      have hL' : L' ≠ [] := List.ne_nil_of_mem hy
      have hroot := hexit hL'
      have hle := isMinHeap_root_le_mem hPrep.heap hy
      rw [div_lt_iff hdivpos]
      nlinarith
    -- the eviction step
    by_cases hneg :
        (walkLoop (W / ((s.T.length : ℚ) + (X'.length : ℚ) - 1)) r 0 X').1 < 0
    · -- eviction from X
      have hX' : X' ≠ [] := by
        intro hcon
        rw [hcon] at hneg
        rw [walkLoop] at hneg
        exact absurd hneg (by simpa using not_lt.mpr (le_of_lt hr0))
      obtain ⟨X2, ev, heva, hevmem, hX2len, hX2sub⟩ :=
        evictStep_spec_neg _ r s.T X' ti hX' hneg
      rw [heva]
      refine ⟨_, _, rfl, ?_, rfl, rfl, rfl, htauge, ?_,
        fun _ => ⟨W, L', X', heq, rfl, rfl, rfl⟩⟩
      · constructor
        · exact hLgt'
        · intro x hx
          rcases List.mem_append.mp hx with hx | hx
          · have h1 := hInv.Tle x hx
            exact ⟨h1.1, le_trans h1.2 htauge⟩
          · exact ⟨hPrep.Xpos x (hX2sub x hx), hXle x (hX2sub x hx)⟩
        · exact le_trans hInv.taunn htauge
        · exact hPrep.heap
        · rfl
        · show L'.length + (s.T ++ X2).length = _
          rw [List.length_append]
          have := hInv.size
          have h2 : s.Size = s.L.length + s.T.length := rfl
          show L'.length + (s.T.length + X2.length) =
            min (s.totalCount + 1) s.capacity
          omega
        · intro hcon
          have h2 : L'.length + (s.T ++ X2).length < s.capacity := hcon
          rw [List.length_append] at h2
          omega
      · intro y hy
        rcases List.mem_append.mp hy with hy | hy
        · rcases List.mem_append.mp (hperm.mem_iff.mpr
            (List.mem_append_left _ hy)) with h | h
          · exact Or.inl (List.mem_append_left _ h)
          · exact Or.inr (List.mem_singleton.mp h)
        · rcases List.mem_append.mp hy with hy | hy
          · exact Or.inl (List.mem_append_right _ hy)
          · have : ev ∈ L' ++ X' → y ∈ L' ++ X' := fun _ =>
              List.mem_append_right _ (hX2sub y hy)
            rcases List.mem_append.mp (hperm.mem_iff.mpr
              (List.mem_append_right _ (hX2sub y hy))) with h | h
            · exact Or.inl (List.mem_append_left _ h)
            · exact Or.inr (List.mem_singleton.mp h)
    · -- eviction from T; first, T cannot be empty here
      have hT : s.T ≠ [] := by
        intro hTnil
        have htlen : s.T.length = 0 := by rw [hTnil]; rfl
        have hX' : X' ≠ [] := by
          intro hcon
          have hL' : L' ≠ [] := by
            intro hcon2
            rw [hcon, hcon2] at hlenLX
            simp at hlenLX
          have hroot := hexit hL'
          have hrootpos : 0 < wAt L' 0 := by
            obtain ⟨y, ys, rfl⟩ : ∃ y ys, L' = y :: ys := by
              match L', hL' with
              | y :: ys, _ => exact ⟨y, ys, rfl⟩
            rw [wAt_cons_zero]
            exact lt_of_le_of_lt hInv.taunn
              (hPrep.Lgt y (List.mem_cons_self y ys))
          rw [htlen, hcon] at hroot
          simp only [List.length_nil, Nat.cast_zero] at hroot
          have hW0 : W = 0 := by
            rw [hPrep.Weq, htlen, hcon]
            simp [wSum]
          rw [hW0] at hroot
          nlinarith
        have hWX : W = wSum X' := by
          rw [hPrep.Weq, htlen]
          push_cast
          ring
        have hWpos : 0 < W := by
          rw [hWX]
          exact wSum_pos hX' hPrep.Xpos
        have hge := walkLoop_complete_ge _ X' r 0 hneg
        rw [invTermSum_eq] at hge
        have htane : W / ((s.T.length : ℚ) + (X'.length : ℚ) - 1) ≠ 0 :=
          ne_of_gt htaupos
        have hquot : wSum X' /
            (W / ((s.T.length : ℚ) + (X'.length : ℚ) - 1)) =
            (s.T.length : ℚ) + (X'.length : ℚ) - 1 := by
          rw [← hWX]
          field_simp
        rw [hquot, htlen] at hge
        push_cast at hge
        linarith
      obtain ⟨T2, ev, heva, hevmem, hT2len, hT2sub⟩ :=
        evictStep_spec_pos _ r s.T X' ti hT hneg
      rw [heva]
      refine ⟨_, _, rfl, ?_, rfl, rfl, rfl, htauge, ?_,
        fun _ => ⟨W, L', X', heq, rfl, rfl, rfl⟩⟩
      · constructor
        · exact hLgt'
        · intro x hx
          rcases List.mem_append.mp hx with hx | hx
          · have h1 := hInv.Tle x (hT2sub x hx)
            exact ⟨h1.1, le_trans h1.2 htauge⟩
          · exact ⟨hPrep.Xpos x hx, hXle x hx⟩
        · exact le_trans hInv.taunn htauge
        · exact hPrep.heap
        · rfl
        · show L'.length + (T2 ++ X').length = _
          rw [List.length_append]
          have := hInv.size
          have h2 : s.Size = s.L.length + s.T.length := rfl
          show L'.length + (T2.length + X'.length) =
            min (s.totalCount + 1) s.capacity
          omega
        · intro hcon
          have h2 : L'.length + (T2 ++ X').length < s.capacity := hcon
          rw [List.length_append] at h2
          omega
      · intro y hy
        rcases List.mem_append.mp hy with hy | hy
        · rcases List.mem_append.mp (hperm.mem_iff.mpr
            (List.mem_append_left _ hy)) with h | h
          · exact Or.inl (List.mem_append_left _ h)
          · exact Or.inr (List.mem_singleton.mp h)
        · rcases List.mem_append.mp hy with hy | hy
          · exact Or.inl (List.mem_append_right _ (hT2sub y hy))
          · rcases List.mem_append.mp (hperm.mem_iff.mpr
              (List.mem_append_right _ hy)) with h | h
            · exact Or.inl (List.mem_append_left _ h)
            · exact Or.inr (List.mem_singleton.mp h)

/-- The trace lemma: a sequence of accepted `Add` calls from an invariant
state completes, preserves the invariant, and the retained items all come
from the initial state or the inputs. -/
theorem runAdds_spec :
    ∀ (inputs : List (AddInput α)) (s : Varopt α),
      Inv s → 1 ≤ s.capacity → (∀ a ∈ inputs, ValidInput a) →
      ∃ s', runAdds s inputs = some s' ∧ Inv s' ∧
        s'.capacity = s.capacity ∧
        s'.totalCount = s.totalCount + inputs.length ∧
        s.tau ≤ s'.tau ∧
        (∀ x ∈ s'.L ++ s'.T, x ∈ s.L ++ s.T ∨
          ∃ i ∈ inputs, x = ⟨i.sample, i.weight⟩) := by
  intro inputs
  induction inputs with
  | nil =>
    intro s hInv hcap _
    exact ⟨s, rfl, hInv, rfl, rfl, le_refl _, fun x hx => Or.inl hx⟩
  | cons a rest ih =>
    intro s hInv hcap hvalid
    have hva := hvalid a (List.mem_cons_self a rest)
    obtain ⟨s1, ev, heq, hInv1, hc, hn, _, htau1, hmem1, _⟩ :=
      Add_spec s a.sample a.weight a.r a.tiRaw hInv hcap
        hva.1 hva.2.1 hva.2.2
    obtain ⟨s', heq', hInv', hc', hn', htau', hmem'⟩ :=
      ih s1 hInv1 (by omega) (fun b hb => hvalid b (List.mem_cons_of_mem a hb))
    refine ⟨s', ?_, hInv', by omega,
      by simp only [List.length_cons]; omega, le_trans htau1 htau', ?_⟩
    · rw [runAdds, heq]
      exact heq'
    · intro x hx
      rcases hmem' x hx with h | ⟨i, hi, hxi⟩
      · rcases hmem1 x h with h2 | h2
        · exact Or.inl h2
        · exact Or.inr ⟨a, List.mem_cons_self a rest, h2⟩
      · exact Or.inr ⟨i, List.mem_cons_of_mem a hi, hxi⟩

/-! ### Specification-side definitions (refinement targets) -/

theorem min?_spec {l : List ℚ} {m : ℚ} (h : l.min? = some m) :
    m ∈ l ∧ ∀ b ∈ l, m ≤ b :=
  ⟨List.min?_mem (fun a b => min_choice a b) h,
    (List.le_min?_iff (fun a b c => le_min_iff) h).1 (le_refl m)⟩

/-- The least weight present in the heap (0 for an empty heap), as the
spec's phrase "weight of current large-structure minimum" reads: a
minimum over the multiset of stored weights, independent of the heap
layout. -/
def minHeapWeight (L : List (Vsample α)) : ℚ :=
  ((L.map Vsample.weight).min?).getD 0

theorem minHeapWeight_eq_root {L : List (Vsample α)} (hL : IsMinHeap L)
    (hne : L ≠ []) : minHeapWeight L = wAt L 0 := by
  obtain ⟨x, xs, rfl⟩ : ∃ x xs, L = x :: xs := by
    match L, hne with
    | x :: xs, _ => exact ⟨x, xs, rfl⟩
  have hsome : ∃ m, ((x :: xs).map Vsample.weight).min? = some m := by
    rw [List.map_cons, List.min?]
    exact ⟨_, rfl⟩
  obtain ⟨m, hm⟩ := hsome
  obtain ⟨hmem, hle⟩ := min?_spec hm
  obtain ⟨y, hy, hyw⟩ := List.mem_map.mp hmem
  have h1 : m ≤ wAt (x :: xs) 0 := by
    rw [wAt_cons_zero]
    exact hle x.weight (List.mem_map.mpr ⟨x, List.mem_cons_self x xs, rfl⟩)
  have h2 : wAt (x :: xs) 0 ≤ m := by
    rw [← hyw]
    exact isMinHeap_root_le_mem hL hy
  rw [minHeapWeight, hm]
  have hmr : m = wAt (x :: xs) 0 := le_antisymm h1 h2
  simpa using hmr

/-- The migration loop as the spec states it (claim C1): "the minimum of
the heap is repeatedly popped into X (its weight added to W) while the
heap is non-empty and W >= (|T| + |X| - 1) * (minimum heap weight)". -/
def specPopLoop (tlen : ℕ) (W : ℚ) (L X : List (Vsample α)) :
    ℚ × List (Vsample α) × List (Vsample α) :=
  if 0 < L.length ∧ W ≥ ((tlen : ℚ) + (X.length : ℚ) - 1) * minHeapWeight L
  then
    match hp : heapPop L with
    | some (hd, L') => specPopLoop tlen (W + hd.weight) L' (X ++ [hd])
    | none => (W, L, X)
  else (W, L, X)
termination_by L.length
decreasing_by
  have := heapPop_length hp
  omega

/-- The steady-state preparation as the spec states it (claim C1): W
initialized to `tau * |T|`; the new item pushed into the large-item heap
when its weight exceeds `tau`, otherwise appended to X with its weight
added to W; then the migration loop above. -/
def specSteadyPrep (s : Varopt α) (v : Vsample α) :
    ℚ × List (Vsample α) × List (Vsample α) :=
  if v.weight > s.tau then
    specPopLoop s.T.length (s.tau * (s.T.length : ℚ)) (heapPush s.L v) s.X
  else
    specPopLoop s.T.length (s.tau * (s.T.length : ℚ) + v.weight) s.L
      (s.X ++ [v])

theorem popLoop_eq_spec (tlen : ℕ) :
    ∀ (n : ℕ) (W : ℚ) (L X : List (Vsample α)), L.length ≤ n →
      IsMinHeap L → popLoop tlen W L X = specPopLoop tlen W L X := by
  intro n
  induction n with
  | zero =>
    intro W L X hn _
    have hL : L = [] := List.length_eq_zero.mp (by omega)
    subst hL
    rw [popLoop, specPopLoop, if_neg (by simp), if_neg (by simp)]
  | succ n ih =>
    intro W L X hn hheap
    by_cases hL : L = []
    · subst hL
      rw [popLoop, specPopLoop, if_neg (by simp), if_neg (by simp)]
    · obtain ⟨x, xs, rfl⟩ : ∃ x xs, L = x :: xs := by
        match L, hL with
        | x :: xs, _ => exact ⟨x, xs, rfl⟩
      rw [popLoop, specPopLoop,
        minHeapWeight_eq_root hheap (by simp)]
      by_cases hcond : 0 < (x :: xs).length ∧
          W ≥ ((tlen : ℚ) + (X.length : ℚ) - 1) * wAt (x :: xs) 0
      · rw [if_pos hcond, if_pos hcond]
        simp only [heapPop_cons]
        apply ih
        · have h1 := heapPop_length (heapPop_cons x xs)
          simp only [List.length_cons] at hn h1
          omega
        · exact heapPop_isMinHeap hheap (heapPop_cons x xs)
      · rw [if_neg hcond, if_neg hcond]

theorem steadyPrep_eq_spec (s : Varopt α) (v : Vsample α)
    (hheap : IsMinHeap s.L) : steadyPrep s v = specSteadyPrep s v := by
  unfold steadyPrep specSteadyPrep
  split
  · exact popLoop_eq_spec s.T.length (heapPush s.L v).length _ _ _
      (le_refl _) (heapPush_isMinHeap hheap v)
  · exact popLoop_eq_spec s.T.length s.L.length _ _ _ (le_refl _) hheap

/-- Full characterization of the eviction walk: it stops after `k` items,
having decremented `r` by the term `(1 - weight/tau)` of each item walked
in order; `r` stayed nonnegative before each decrement, and if the walk
stopped before exhausting `X`, the accumulated result is negative. -/
theorem walkLoop_char (tau : ℚ) :
    ∀ (X : List (Vsample α)) (r : ℚ) (d₀ : ℕ),
      ∃ k, k ≤ X.length ∧
        walkLoop tau r d₀ X = (r - invTermSum tau (X.take k), d₀ + k) ∧
        (∀ j, j < k → 0 ≤ r - invTermSum tau (X.take j)) ∧
        (k < X.length → r - invTermSum tau (X.take k) < 0) := by
  intro X
  induction X with
  | nil =>
    intro r d₀
    refine ⟨0, le_refl _, ?_, fun j hj => absurd hj (by omega), by simp⟩
    simp [walkLoop, invTermSum]
  | cons x xs ih =>
    intro r d₀
    rw [walkLoop]
    by_cases hr : r < 0
    · rw [if_pos hr]
      refine ⟨0, by simp, ?_, fun j hj => absurd hj (by omega), ?_⟩
      · simp [invTermSum]
      · intro _
        have : invTermSum tau ((x :: xs).take 0) = 0 := by simp [invTermSum]
        rw [this]
        linarith
    · rw [if_neg hr]
      obtain ⟨k, hk, heqw, hpos, hstop⟩ :=
        ih (r - (1 - x.weight / tau)) (d₀ + 1)
      refine ⟨k + 1, by simpa using hk, ?_, ?_, ?_⟩
      · rw [heqw]
        have e1 : (x :: xs).take (k + 1) = x :: xs.take k := rfl
        have e2 : invTermSum tau (x :: xs.take k) =
            (1 - x.weight / tau) + invTermSum tau (xs.take k) := by
          simp [invTermSum]
        rw [e1, e2, Prod.mk.injEq]
        constructor
        · ring
        · omega
      · intro j hj
        match j with
        | 0 =>
          have : invTermSum tau ((x :: xs).take 0) = 0 := by simp [invTermSum]
          rw [this]
          linarith
        | j + 1 =>
          have e1 : (x :: xs).take (j + 1) = x :: xs.take j := rfl
          have e2 : invTermSum tau (x :: xs.take j) =
              (1 - x.weight / tau) + invTermSum tau (xs.take j) := by
            simp [invTermSum]
          rw [e1, e2]
          have := hpos j (by omega)
          linarith
      · intro hlt
        have e1 : (x :: xs).take (k + 1) = x :: xs.take k := rfl
        have e2 : invTermSum tau (x :: xs.take k) =
            (1 - x.weight / tau) + invTermSum tau (xs.take k) := by
          simp [invTermSum]
        rw [e1, e2]
        have := hstop (by simpa using hlt)
        linarith

/-- Modelled from the spec: the `float64` weight argument of the current
revision's `Add` (the current revision is not among the embedded sources;
only its tests are).  A weight is a finite value, `NaN`, or a signed
infinity. -/
inductive GoFloat where
  | finite (q : ℚ)
  | nan
  | posInf
  | negInf
deriving DecidableEq, Repr

/-- `math.IsNaN`. -/
def GoFloat.isNaN : GoFloat → Bool
  | GoFloat.nan => true
  | _ => false

/-- `math.IsInf(w, +1)`. -/
def GoFloat.isPosInf : GoFloat → Bool
  | GoFloat.posInf => true
  | _ => false

/-- The IEEE comparison `w <= 0`: false for `NaN` and `+Inf`, true for
`-Inf` and nonpositive finite values. -/
def GoFloat.le0 : GoFloat → Bool
  | GoFloat.finite q => q ≤ 0
  | GoFloat.nan => false
  | GoFloat.posInf => false
  | GoFloat.negInf => true

/-- Modelled from the spec: `ErrInvalidWeight`, the typed error of the
current revision (spec sections 4.1, 7 and 9; the superseded embedded
revisions abort instead). -/
inductive AddError where
  | invalidWeight
deriving DecidableEq, Repr

/-- Modelled from the spec: the current revision's `Add` rejects
`weight <= 0 || math.IsNaN(weight) || math.IsInf(weight, +1)` with
`ErrInvalidWeight` before touching any state, and otherwise runs the
algorithm embedded above and returns the evicted item. -/
def Varopt.AddChecked (s : Varopt α) (sample : α) (weight : GoFloat)
    (r : ℚ) (tiRaw : ℕ) : Option (Varopt α × Except AddError (Option α)) :=
  if weight.le0 || weight.isNaN || weight.isPosInf then
    some (s, Except.error AddError.invalidWeight)
  else
    match weight with
    | GoFloat.finite q =>
      (Varopt.Add s sample q r tiRaw).map fun p => (p.1, Except.ok p.2)
    | _ => none

end varopt

/-! ### The unweighted reservoir (Algorithm R), package `simple` -/

namespace simple

variable {α : Type}

/-- The `Simple` struct (src/simple/simple.go lines 12-17); the random
number generator is passed per call as the raw draw behind `Intn`. -/
structure Simple (α : Type) where
  capacity : ℕ
  observed : ℕ
  buffer : List α
deriving DecidableEq, Repr

/-- `New`/`Init` (src/simple/simple.go lines 19-32): zero counters and an
empty buffer. -/
def New (capacity : ℕ) : Simple α :=
  { capacity := capacity, observed := 0, buffer := [] }

/-- `Add` (src/simple/simple.go lines 36-49): count the observation;
append while the buffer is short of capacity; otherwise draw an index
uniform in `[0, observed)` (a raw draw reduced `mod observed`, after the
increment) and replace that slot exactly when the index is below the
capacity. -/
def Simple.Add (s : Simple α) (item : α) (idxRaw : ℕ) : Simple α :=
  let s := { s with observed := s.observed + 1 }
  if s.buffer.length < s.capacity then
    { s with buffer := s.buffer ++ [item] }
  else
    let index := idxRaw % s.observed
    if index < s.capacity then { s with buffer := s.buffer.set index item }
    else s

/-- `Get` (src/simple/simple.go lines 51-54); out of range is a panic. -/
def Simple.Get (s : Simple α) (i : ℕ) : Option α := s.buffer[i]?

/-- `Size` (src/simple/simple.go lines 56-60). -/
def Simple.Size (s : Simple α) : ℕ := s.buffer.length

/-- `Count` (src/simple/simple.go lines 62-65). -/
def Simple.Count (s : Simple α) : ℕ := s.observed

/-- Run a sequence of `Add` calls; each input carries the item and the
raw integer draw consumed when the reservoir is full. -/
def runSimple : Simple α → List (α × ℕ) → Simple α
  | s, [] => s
  | s, (item, idxRaw) :: rest => runSimple (s.Add item idxRaw) rest

/-- The Algorithm R buffer always holds `min(observed, capacity)`
items. -/
theorem runSimple_size {α : Type} :
    ∀ (items : List (α × ℕ)) (s : Simple α),
      s.buffer.length = min s.observed s.capacity →
      (runSimple s items).buffer.length =
        min (runSimple s items).observed (runSimple s items).capacity ∧
      (runSimple s items).observed = s.observed + items.length ∧
      (runSimple s items).capacity = s.capacity := by
  intro items
  induction items with
  | nil => intro s hs; exact ⟨hs, rfl, rfl⟩
  | cons p rest ih =>
    intro s hs
    obtain ⟨item, idxRaw⟩ := p
    have hstep : (s.Add item idxRaw).buffer.length =
        min (s.Add item idxRaw).observed (s.Add item idxRaw).capacity ∧
        (s.Add item idxRaw).observed = s.observed + 1 ∧
        (s.Add item idxRaw).capacity = s.capacity := by
      unfold Simple.Add
      dsimp only
      split
      · rename_i hlt
        have hlt' : s.buffer.length < s.capacity := hlt
        refine ⟨?_, rfl, rfl⟩
        show (s.buffer ++ [item]).length = min (s.observed + 1) s.capacity
        simp only [List.length_append, List.length_cons, List.length_nil]
        omega
      · rename_i hge
        have hge' : ¬ s.buffer.length < s.capacity := hge
        split
        · rename_i hidx
          have hidx' : idxRaw % (s.observed + 1) < s.capacity := hidx
          refine ⟨?_, rfl, rfl⟩
          show (s.buffer.set (idxRaw % (s.observed + 1)) item).length =
            min (s.observed + 1) s.capacity
          simp only [List.length_set]
          omega
        · refine ⟨?_, rfl, rfl⟩
          show s.buffer.length = min (s.observed + 1) s.capacity
          omega
    obtain ⟨h1, h2, h3⟩ := ih (s.Add item idxRaw) hstep.1
    have hrs : runSimple s ((item, idxRaw) :: rest) =
        runSimple (s.Add item idxRaw) rest := rfl
    rw [hrs]
    refine ⟨h1, ?_, h3.trans hstep.2.2⟩
    rw [h2, hstep.2.1]
    simp only [List.length_cons]
    omega

end simple

/-! ### The claims -/

open varopt simple

/-- A concrete full sampler state (capacity 1, one item of weight 1,
threshold still 0) used by the witnesses. -/
def exState : Varopt ℕ :=
  { L := [{ sample := 0, weight := 1 }], T := [], X := [], tau := 0,
    capacity := 1, totalCount := 1, totalWeight := 1 }

theorem exState_Inv : Inv exState := by
  constructor <;> decide

/-- Claim C1: on a full sampler, an accepted `Add` performs exactly the
steady-state step the spec describes: `W = tau * |T|`; the new item is
pushed into the large-item heap if its weight exceeds `tau`, otherwise
appended to `X` with its weight added to `W`; the minimum of the heap is
repeatedly popped into `X` (its weight added to `W`) while the heap is
non-empty and `W >= (|T| + |X| - 1) * (minimum heap weight)`; and `tau`
is set to `W / (|T| + |X| - 1)`.  `specSteadyPrep` is written from the
spec's words (with the heap minimum read as the least stored weight);
`steadyPrep` is the source embedding. -/
theorem claim_C1 {α : Type} (s : Varopt α) (a : α) (w r : ℚ) (ti : ℕ)
    (hInv : Inv s) (hcap : 1 ≤ s.capacity) (hfull : ¬ s.Size < s.capacity)
    (hw : 0 < w) (hr0 : 0 < r) (hr1 : r < 1) :
    steadyPrep s ⟨a, w⟩ = specSteadyPrep s ⟨a, w⟩ ∧
    ∃ W L' X' s' ev,
      specSteadyPrep s ⟨a, w⟩ = (W, L', X') ∧
      Varopt.Add s a w r ti = some (s', ev) ∧
      s'.L = L' ∧ s'.X = [] ∧
      s'.tau = W / ((s.T.length : ℚ) + (X'.length : ℚ) - 1) := by
  have hspec := steadyPrep_eq_spec s ⟨a, w⟩ hInv.heap
  refine ⟨hspec, ?_⟩
  obtain ⟨s', ev, heq, _, _, _, _, _, _, hsteady⟩ :=
    Add_spec s a w r ti hInv hcap hw hr0 hr1
  obtain ⟨W, L', X', hprep, hL, hX, htau⟩ := hsteady hfull
  exact ⟨W, L', X', s', ev, hspec ▸ hprep, heq, hL, hX, htau⟩

/-- Claim C1 witness: the steady-state step at a concrete full
capacity-1 sampler. -/
theorem claim_C1_witness :
    Inv exState ∧
    (steadyPrep exState ⟨1, 2⟩ = specSteadyPrep exState ⟨1, 2⟩ ∧
    ∃ W L' X' s' ev,
      specSteadyPrep exState ⟨1, 2⟩ = (W, L', X') ∧
      Varopt.Add exState 1 2 (1/2) 0 = some (s', ev) ∧
      s'.L = L' ∧ s'.X = [] ∧
      s'.tau = W / ((exState.T.length : ℚ) + (X'.length : ℚ) - 1)) :=
  ⟨exState_Inv,
    claim_C1 exState 1 2 (1/2) 0 exState_Inv (by decide) (by decide)
      (by decide) (by norm_num) (by norm_num)⟩

/-- Claim C2: after any sequence of accepted `Add` calls,
`Size = |L| + |T| <= capacity` and `Size = min(totalCount, capacity)`;
in particular once `totalCount >= capacity` the size is exactly the
capacity (each steady-state `Add` removes exactly one item). -/
theorem claim_C2 {α : Type} (capacity : ℕ) (inputs : List (AddInput α))
    (hcap : 1 ≤ capacity) (hvalid : ∀ a ∈ inputs, ValidInput a) :
    ∃ s', runAdds (New capacity : Varopt α) inputs = some s' ∧
      s'.Size = s'.L.length + s'.T.length ∧
      s'.Size = min s'.totalCount capacity ∧
      s'.Size ≤ capacity ∧
      s'.totalCount = inputs.length ∧
      (capacity ≤ inputs.length → s'.Size = capacity) := by
  obtain ⟨s', hrun, hInv', hc', hn', _, _⟩ :=
    runAdds_spec inputs (New capacity : Varopt α) (Inv_New capacity) hcap
      hvalid
  have hcc : s'.capacity = capacity := hc'
  have hnn : s'.totalCount = inputs.length := by
    rw [hn']
    exact Nat.zero_add inputs.length
  refine ⟨s', hrun, rfl, ?_, ?_, hnn, ?_⟩
  · rw [hInv'.size, hcc]
  · rw [hInv'.size, hcc]; omega
  · intro h
    rw [hInv'.size, hcc, hnn]
    omega

/-- Claim C2 witness: two adds into a capacity-1 sampler. -/
theorem claim_C2_witness :
    (∀ a ∈ [(⟨5, 1, 1/2, 0⟩ : AddInput ℕ), ⟨6, 2, 1/2, 0⟩], ValidInput a) ∧
    ∃ s', runAdds (New 1 : Varopt ℕ)
        [⟨5, 1, 1/2, 0⟩, ⟨6, 2, 1/2, 0⟩] = some s' ∧
      s'.Size = s'.L.length + s'.T.length ∧
      s'.Size = min s'.totalCount 1 ∧
      s'.Size ≤ 1 ∧
      s'.totalCount = [(⟨5, 1, 1/2, 0⟩ : AddInput ℕ), ⟨6, 2, 1/2, 0⟩].length ∧
      (1 ≤ [(⟨5, 1, 1/2, 0⟩ : AddInput ℕ), ⟨6, 2, 1/2, 0⟩].length →
        s'.Size = 1) :=
  ⟨by norm_num [ValidInput],
    claim_C2 1 [⟨5, 1, 1/2, 0⟩, ⟨6, 2, 1/2, 0⟩] (by decide)
      (by norm_num [ValidInput])⟩

/-- Claim C3: `Add` with a weight that is `<= 0`, `NaN` or `+Inf`
returns the typed error `ErrInvalidWeight` (it does not abort), and the
call is a no-op: counters, `tau`, the pools and the size are all
unchanged. -/
theorem claim_C3 {α : Type} (s : Varopt α) (a : α) (w : GoFloat) (r : ℚ)
    (ti : ℕ)
    (hbad : w.le0 = true ∨ w.isNaN = true ∨ w.isPosInf = true) :
    Varopt.AddChecked s a w r ti =
      some (s, Except.error AddError.invalidWeight) ∧
    ∃ s' e, Varopt.AddChecked s a w r ti = some (s', e) ∧
      e = Except.error AddError.invalidWeight ∧
      s'.totalCount = s.totalCount ∧ s'.totalWeight = s.totalWeight ∧
      s'.Tau = s.Tau ∧ s'.L = s.L ∧ s'.T = s.T ∧ s'.X = s.X ∧
      s'.Size = s.Size := by
  have heq : Varopt.AddChecked s a w r ti =
      some (s, Except.error AddError.invalidWeight) := by
    unfold Varopt.AddChecked
    rw [if_pos]
    rcases hbad with h | h | h <;> simp [h]
  exact ⟨heq, s, _, heq, rfl, rfl, rfl, rfl, rfl, rfl, rfl, rfl⟩

/-- Claim C3 witness: a NaN weight is rejected with no state change. -/
theorem claim_C3_witness :
    ((GoFloat.nan.le0 = true ∨ GoFloat.nan.isNaN = true ∨
      GoFloat.nan.isPosInf = true)) ∧
    (Varopt.AddChecked exState 7 GoFloat.nan (1/2) 0 =
      some (exState, Except.error AddError.invalidWeight) ∧
    ∃ s' e, Varopt.AddChecked exState 7 GoFloat.nan (1/2) 0 =
        some (s', e) ∧
      e = Except.error AddError.invalidWeight ∧
      s'.totalCount = exState.totalCount ∧
      s'.totalWeight = exState.totalWeight ∧
      s'.Tau = exState.Tau ∧ s'.L = exState.L ∧ s'.T = exState.T ∧
      s'.X = exState.X ∧ s'.Size = exState.Size) :=
  ⟨Or.inr (Or.inl rfl),
    claim_C3 exState 7 GoFloat.nan (1/2) 0 (Or.inr (Or.inl rfl))⟩

/-- Claim C4: the uniform draw is taken from `[0,1)` and redrawn while
it is exactly 0; the eviction walk decrements `r` by `(1 - weight/tau)`
per item of `X` in order; when `r` has become negative the item at the
stopping index is removed from `X` by swap-with-last and truncation,
otherwise the entry of `T` at the drawn index is removed by
swap-with-last; the remaining `X` is appended onto `T`. -/
theorem claim_C4 {α : Type} :
    (∀ (floats : ℕ → ℚ) (h : ∃ i, floats i ≠ 0),
      (∀ i, 0 ≤ floats i ∧ floats i < 1) →
      0 < uniform floats h ∧ uniform floats h < 1 ∧
      ∃ k, uniform floats h = floats k ∧ ∀ j, j < k → floats j = 0) ∧
    (∀ (tau r : ℚ) (X : List (Vsample α)),
      ∃ k, k ≤ X.length ∧
        walkLoop tau r 0 X = (r - invTermSum tau (X.take k), k) ∧
        (∀ j, j < k → 0 ≤ r - invTermSum tau (X.take j)) ∧
        (k < X.length → r - invTermSum tau (X.take k) < 0)) ∧
    (∀ (tau r : ℚ) (T X : List (Vsample α)) (ti : ℕ) (rEnd : ℚ) (d : ℕ),
      walkLoop tau r 0 X = (rEnd, d) →
      (rEnd < 0 → ∀ hX : 0 < X.length,
        evictStep tau r T X ti = some
          (T ++ (if d < X.length then (swapL X d (X.length - 1)).dropLast
                 else X.dropLast),
           if h : d < X.length then X.get ⟨d, h⟩
           else X.get ⟨X.length - 1, by omega⟩)) ∧
      (¬ rEnd < 0 → ∀ hT : 0 < T.length,
        evictStep tau r T X ti = some
          ((swapL T (ti % T.length) (T.length - 1)).dropLast ++ X,
           T.get ⟨ti % T.length, Nat.mod_lt _ hT⟩))) := by
  refine ⟨?_, ?_, ?_⟩
  · intro floats h hrange
    have hne : floats (Nat.find h) ≠ 0 := Nat.find_spec h
    have h0 : 0 ≤ floats (Nat.find h) := (hrange (Nat.find h)).1
    refine ⟨lt_of_le_of_ne h0 (Ne.symm hne), (hrange (Nat.find h)).2, ?_⟩
    refine ⟨Nat.find h, rfl, ?_⟩
    intro j hj
    by_contra hne2
    exact absurd hj (not_lt.mpr (Nat.find_le hne2))
  · intro tau r X
    obtain ⟨k, hk, heqw, hpos, hstop⟩ := walkLoop_char tau X r 0
    exact ⟨k, hk, by simpa using heqw, hpos, hstop⟩
  · intro tau r T X ti rEnd d hwk
    constructor
    · intro hneg hX
      obtain ⟨c, cs, rfl⟩ : ∃ c cs, X = c :: cs := by
        match X, hX with
        | c :: cs, _ => exact ⟨c, cs, rfl⟩
      unfold evictStep
      rw [hwk]
      simp only [if_pos hneg, List.length_cons]
    · intro hpos hT
      obtain ⟨c, cs, rfl⟩ : ∃ c cs, T = c :: cs := by
        match T, hT with
        | c :: cs, _ => exact ⟨c, cs, rfl⟩
      unfold evictStep
      rw [hwk]
      simp only [if_neg hpos, List.length_cons]

/-- Claim C4 witness: the walk and the X-eviction at concrete values. -/
theorem claim_C4_witness :
    (walkLoop (3 : ℚ) (1/2) 0
        [(⟨0, 1⟩ : Vsample ℕ), ⟨1, 2⟩] = (-(1/6), 1)) ∧
    evictStep (3 : ℚ) (1/2) ([] : List (Vsample ℕ)) [⟨0, 1⟩, ⟨1, 2⟩] 0 =
      some ([⟨0, 1⟩], ⟨1, 2⟩) := by
  have hwk : walkLoop (3 : ℚ) (1/2) 0
      [(⟨0, 1⟩ : Vsample ℕ), ⟨1, 2⟩] = (-(1/6), 1) := by
    norm_num [walkLoop]
  refine ⟨hwk, ?_⟩
  have h := ((claim_C4 (α := ℕ)).2.2 3 (1/2) [] [⟨0, 1⟩, ⟨1, 2⟩] 0
    (-(1/6)) 1 hwk).1 (by norm_num) (by decide)
  rw [h]
  decide

/-- Claim C5: after every accepted `Add` (and initially), every item in
the heap `L` has weight strictly above the current `tau`, every item in
`T` has weight at most `tau`, and `tau >= 0`. -/
theorem claim_C5 {α : Type} (capacity : ℕ) (inputs : List (AddInput α))
    (hcap : 1 ≤ capacity) (hvalid : ∀ a ∈ inputs, ValidInput a) :
    ((∀ x ∈ (New capacity : Varopt α).L,
        (New capacity : Varopt α).Tau < x.weight) ∧
      (∀ x ∈ (New capacity : Varopt α).T,
        x.weight ≤ (New capacity : Varopt α).Tau) ∧
      0 ≤ (New capacity : Varopt α).Tau) ∧
    ∃ s', runAdds (New capacity : Varopt α) inputs = some s' ∧
      (∀ x ∈ s'.L, s'.Tau < x.weight) ∧
      (∀ x ∈ s'.T, x.weight ≤ s'.Tau) ∧
      0 ≤ s'.Tau := by
  refine ⟨⟨fun x hx => absurd hx (List.not_mem_nil x),
    fun x hx => absurd hx (List.not_mem_nil x), le_refl _⟩, ?_⟩
  obtain ⟨s', hrun, hInv', _, _, _, _⟩ :=
    runAdds_spec inputs (New capacity : Varopt α) (Inv_New capacity) hcap
      hvalid
  exact ⟨s', hrun, hInv'.Lgt, fun x hx => (hInv'.Tle x hx).2, hInv'.taunn⟩

/-- Claim C5 witness. -/
theorem claim_C5_witness :
    (∀ a ∈ [(⟨5, 1, 1/2, 0⟩ : AddInput ℕ), ⟨6, 2, 1/2, 0⟩], ValidInput a) ∧
    (((∀ x ∈ (New 1 : Varopt ℕ).L, (New 1 : Varopt ℕ).Tau < x.weight) ∧
      (∀ x ∈ (New 1 : Varopt ℕ).T, x.weight ≤ (New 1 : Varopt ℕ).Tau) ∧
      0 ≤ (New 1 : Varopt ℕ).Tau) ∧
    ∃ s', runAdds (New 1 : Varopt ℕ)
        [⟨5, 1, 1/2, 0⟩, ⟨6, 2, 1/2, 0⟩] = some s' ∧
      (∀ x ∈ s'.L, s'.Tau < x.weight) ∧
      (∀ x ∈ s'.T, x.weight ≤ s'.Tau) ∧
      0 ≤ s'.Tau) :=
  ⟨by norm_num [ValidInput],
    claim_C5 1 [⟨5, 1, 1/2, 0⟩, ⟨6, 2, 1/2, 0⟩] (by decide)
      (by norm_num [ValidInput])⟩

/-- Claim C6: `Get(i)` for `i < |L|` reads slot `i` of the heap's
backing array with the stored (original) weight; for `|L| <= i < size`
it reads `T[i - |L|]` with the current `tau` instead; and
`GetOriginalWeight(i)` returns the weight originally passed to `Add`
for the item at index `i`, from either pool. -/
theorem claim_C6 {α : Type} (capacity : ℕ) (inputs : List (AddInput α))
    (hcap : 1 ≤ capacity) (hvalid : ∀ a ∈ inputs, ValidInput a) :
    ∃ s', runAdds (New capacity : Varopt α) inputs = some s' ∧
      ∀ i, i < s'.Size →
        ∃ x : Vsample α,
          (s'.L ++ s'.T)[i]? = some x ∧
          s'.GetOriginalWeight i = some x.weight ∧
          (i < s'.L.length →
            s'.L[i]? = some x ∧ s'.Get i = some (x.sample, x.weight)) ∧
          (¬ i < s'.L.length →
            s'.T[i - s'.L.length]? = some x ∧
            s'.Get i = some (x.sample, s'.Tau)) ∧
          ∃ inp ∈ inputs, x = ⟨inp.sample, inp.weight⟩ := by
  obtain ⟨s', hrun, hInv', _, _, _, hmem⟩ :=
    runAdds_spec inputs (New capacity : Varopt α) (Inv_New capacity) hcap
      hvalid
  refine ⟨s', hrun, ?_⟩
  intro i hi
  have hilen : i < (s'.L ++ s'.T).length := by
    rw [List.length_append]
    exact hi
  refine ⟨(s'.L ++ s'.T).get ⟨i, hilen⟩, List.getElem?_eq_getElem hilen, ?_,
    ?_, ?_, ?_⟩
  · by_cases hiL : i < s'.L.length
    · rw [Varopt.GetOriginalWeight, if_pos hiL, List.getElem?_eq_getElem hiL]
      have he := @List.getElem_append_left _ _ _ s'.T hiL hilen
      simp [he]
    · have hiT : i - s'.L.length < s'.T.length := by
        rw [List.length_append] at hilen
        omega
      rw [Varopt.GetOriginalWeight, if_neg hiL,
        List.getElem?_eq_getElem hiT]
      have he := @List.getElem_append_right _ _ s'.T _ (not_lt.mp hiL) hilen
      simp [he]
  · intro hiL
    have he := @List.getElem_append_left _ _ _ s'.T hiL hilen
    constructor
    · rw [List.getElem?_eq_getElem hiL]
      simp [he]
    · rw [Varopt.Get, if_pos hiL, List.getElem?_eq_getElem hiL]
      simp [he]
  · intro hiL
    have hiT : i - s'.L.length < s'.T.length := by
      rw [List.length_append] at hilen
      omega
    have he := @List.getElem_append_right _ _ s'.T _ (not_lt.mp hiL) hilen
    constructor
    · rw [List.getElem?_eq_getElem hiT]
      simp [he]
    · rw [Varopt.Get, if_neg hiL, List.getElem?_eq_getElem hiT]
      simp [he, Varopt.Tau]
  · have hx : (s'.L ++ s'.T).get ⟨i, hilen⟩ ∈ s'.L ++ s'.T :=
      List.get_mem _ _ _
    rcases hmem _ hx with h | h
    · simp [varopt.New] at h
    · exact h

/-- Claim C6 witness. -/
theorem claim_C6_witness :
    (∀ a ∈ [(⟨5, 1, 1/2, 0⟩ : AddInput ℕ), ⟨6, 2, 1/2, 0⟩], ValidInput a) ∧
    ∃ s', runAdds (New 1 : Varopt ℕ)
        [⟨5, 1, 1/2, 0⟩, ⟨6, 2, 1/2, 0⟩] = some s' ∧
      ∀ i, i < s'.Size →
        ∃ x : Vsample ℕ,
          (s'.L ++ s'.T)[i]? = some x ∧
          s'.GetOriginalWeight i = some x.weight ∧
          (i < s'.L.length →
            s'.L[i]? = some x ∧ s'.Get i = some (x.sample, x.weight)) ∧
          (¬ i < s'.L.length →
            s'.T[i - s'.L.length]? = some x ∧
            s'.Get i = some (x.sample, s'.Tau)) ∧
          ∃ inp ∈ [(⟨5, 1, 1/2, 0⟩ : AddInput ℕ), ⟨6, 2, 1/2, 0⟩],
            x = ⟨inp.sample, inp.weight⟩ :=
  ⟨by norm_num [ValidInput],
    claim_C6 1 [⟨5, 1, 1/2, 0⟩, ⟨6, 2, 1/2, 0⟩] (by decide)
      (by norm_num [ValidInput])⟩

section Sanity

open varopt

private def s1 : Vsample Nat := ⟨1, 5⟩
private def s2 : Vsample Nat := ⟨2, 3⟩
private def s3 : Vsample Nat := ⟨3, 7⟩

example : heapPush (heapPush (heapPush [] s1) s2) s3 =
    [⟨2, 3⟩, ⟨1, 5⟩, ⟨3, 7⟩] := by
  simp +decide [heapPush, siftUp, swapL, wAt, s1, s2, s3]
example : IsMinHeap (heapPush (heapPush (heapPush [] s1) s2) s3) := by
  simp +decide [heapPush, siftUp, swapL, wAt, s1, s2, s3, IsMinHeap]
example : heapPop (heapPush (heapPush (heapPush [] s1) s2) s3) =
    some (⟨2, 3⟩, [⟨1, 5⟩, ⟨3, 7⟩]) := by
  simp +decide [heapPush, heapPop, siftUp, siftDown, minChild, swapL, wAt, s1, s2, s3]

end Sanity

/-- Claim C7 counterexample input: the capacity-1 full sampler.  The
claim asserts the divisor `|T| + |X| - 1` can be 0 when the capacity is
1; at the concrete capacity-1 steady-state step the migration loop pops
the whole heap, leaving `|T| + |X| = 2`, so the divisor is 1, not 0. -/
theorem claim_C7_counterexample :
    exState.capacity = 1 ∧ exState.T.length = 0 ∧
    (steadyPrep exState ⟨1, 2⟩).2.2.length = 2 ∧
    ((exState.T.length : ℤ) +
      ((steadyPrep exState ⟨1, 2⟩).2.2.length : ℤ) - 1) = 1 := by
  have h : (steadyPrep exState ⟨1, 2⟩).2.2.length = 2 := by
    have e0 : heapPush [({ sample := 0, weight := 1 } : Vsample ℕ)]
        { sample := 1, weight := 2 } =
        [{ sample := 0, weight := 1 }, { sample := 1, weight := 2 }] := by
      simp +decide [heapPush, siftUp, swapL, wAt]
    have e1 : steadyPrep exState { sample := 1, weight := 2 } =
        popLoop 0 (0 * ((0 : ℕ) : ℚ))
          (heapPush [({ sample := 0, weight := 1 } : Vsample ℕ)]
            { sample := 1, weight := 2 }) [] := rfl
    have e3 : siftDown
        ((([{ sample := 1, weight := 2 }] :
            List (Vsample ℕ)).getLastD { sample := 0, weight := 1 }) ::
          [({ sample := 1, weight := 2 } : Vsample ℕ)]).dropLast 0 =
        [{ sample := 1, weight := 2 }] := by
      simp +decide [siftDown, minChild, swapL, wAt]
    have e2 : siftDown
        ((([] : List (Vsample ℕ)).getLastD { sample := 1, weight := 2 }) ::
          ([] : List (Vsample ℕ))).dropLast 0 = [] := by
      rw [siftDown]
      simp
    rw [e1, e0, popLoop, if_pos (by norm_num [wAt])]
    simp only [heapPop_cons, e3]
    rw [popLoop, if_pos (by norm_num [wAt])]
    simp only [heapPop_cons, e2]
    rw [popLoop, if_neg (by norm_num)]
    simp
  exact ⟨rfl, rfl, h, by rw [h]; decide⟩

/-- Claim C7, amended: at the steady-state threshold update the divisor
`|T| + |X| - 1` is at least 1 for every capacity >= 1 — including
capacity 1, where the claim alleged it could be 0 — so the division is
never by zero and the new threshold is positive (never `Inf`/`NaN`). -/
theorem claim_C7 {α : Type} (s : Varopt α) (a : α) (w : ℚ)
    (hInv : Inv s) (hcap : 1 ≤ s.capacity) (hfull : ¬ s.Size < s.capacity)
    (hw : 0 < w) :
    ∃ W L' X', steadyPrep s ⟨a, w⟩ = (W, L', X') ∧
      2 ≤ s.T.length + X'.length ∧
      1 ≤ (s.T.length : ℚ) + (X'.length : ℚ) - 1 ∧
      0 < W / ((s.T.length : ℚ) + (X'.length : ℚ) - 1) := by
  have hfull' : s.Size = s.capacity := by
    have := hInv.size
    have h2 : s.Size = s.L.length + s.T.length := rfl
    omega
  obtain ⟨W, L', X', heq, hPrep, hperm, hexit⟩ :=
    steadyPrep_spec s ⟨a, w⟩ hInv.Lgt hInv.heap hInv.Xnil hInv.taunn hw
  refine ⟨W, L', X', heq, ?_⟩
  have hlenLX : L'.length + X'.length = s.L.length + 1 := by
    have h1 := hperm.length_eq
    simp only [List.length_append, List.length_cons, List.length_nil] at h1
    omega
  have hsz : s.L.length + s.T.length = s.capacity := hfull'
  have hXnn : 0 ≤ wSum X' := wSum_nonneg hPrep.Xpos
  have hWnn : 0 ≤ W := by
    rw [hPrep.Weq]
    have : (0 : ℚ) ≤ s.tau * (s.T.length : ℚ) :=
      mul_nonneg hInv.taunn (Nat.cast_nonneg _)
    linarith
  have h2le : 2 ≤ s.T.length + X'.length := by
    by_cases hL' : L' = []
    · have : X'.length = s.L.length + 1 := by
        rw [hL'] at hlenLX
        simpa using hlenLX
      omega
    · have hroot := hexit hL'
      have hrootpos : 0 < wAt L' 0 := by
        obtain ⟨y, ys, rfl⟩ : ∃ y ys, L' = y :: ys := by
          match L', hL' with
          | y :: ys, _ => exact ⟨y, ys, rfl⟩
        rw [wAt_cons_zero]
        exact lt_of_le_of_lt hInv.taunn
          (hPrep.Lgt y (List.mem_cons_self y ys))
      by_contra hcon
      have h3 : ((s.T.length + X'.length : ℕ) : ℚ) ≤ 1 := by
        exact_mod_cast Nat.lt_succ_iff.mp (by omega)
      push_cast at h3
      nlinarith
  have hdiv1 : 1 ≤ (s.T.length : ℚ) + (X'.length : ℚ) - 1 := by
    have h3 : (2 : ℚ) ≤ ((s.T.length + X'.length : ℕ) : ℚ) := by
      exact_mod_cast h2le
    push_cast at h3
    linarith
  have hdivpos : (0 : ℚ) < (s.T.length : ℚ) + (X'.length : ℚ) - 1 := by
    linarith
  refine ⟨h2le, hdiv1, ?_⟩
  apply div_pos _ hdivpos
  by_cases hX' : X' = []
  · have hT2 : 2 ≤ s.T.length := by
      rw [hX'] at h2le
      simpa using h2le
    obtain ⟨t, ts, hT⟩ : ∃ t ts, s.T = t :: ts := by
      match hT3 : s.T, hT2 with
      | t :: ts, _ => exact ⟨t, ts, rfl⟩
    have htpos := hInv.Tle t (by rw [hT]; exact List.mem_cons_self t ts)
    have htaupos' : 0 < s.tau := lt_of_lt_of_le htpos.1 htpos.2
    rw [hPrep.Weq, hX']
    have hz : wSum ([] : List (Vsample α)) = 0 := by simp [wSum]
    rw [hz]
    have hT1 : (1 : ℚ) ≤ (s.T.length : ℚ) := by
      have : (2 : ℚ) ≤ (s.T.length : ℚ) := by exact_mod_cast hT2
      linarith
    nlinarith
  · have := wSum_pos hX' hPrep.Xpos
    rw [hPrep.Weq]
    have : (0 : ℚ) ≤ s.tau * (s.T.length : ℚ) :=
      mul_nonneg hInv.taunn (Nat.cast_nonneg _)
    linarith

/-- Claim C7 witness: the divisor at the concrete capacity-1 steady
state is at least 1. -/
theorem claim_C7_witness :
    Inv exState ∧
    ∃ W L' X', steadyPrep exState ⟨1, 2⟩ = (W, L', X') ∧
      2 ≤ exState.T.length + X'.length ∧
      1 ≤ (exState.T.length : ℚ) + (X'.length : ℚ) - 1 ∧
      0 < W / ((exState.T.length : ℚ) + (X'.length : ℚ) - 1) :=
  ⟨exState_Inv,
    claim_C7 exState 1 2 exState_Inv (by decide) (by decide) (by decide)⟩

/-- Claim C8: the large-item structure is a dense array with the
min-heap ordering (parent weight at most child weight) after every push
and pop: push inserts the new item preserving the invariant and the
contents, the minimum-weight item is always at index 0, and pop removes
and returns an item of minimum weight, preserving the invariant on the
remainder. -/
theorem claim_C8 {α : Type} (l : List (Vsample α)) (v : Vsample α)
    (hl : IsMinHeap l) :
    IsMinHeap (heapPush l v) ∧
    List.Perm (heapPush l v) (l ++ [v]) ∧
    (∀ x ∈ l, wAt l 0 ≤ x.weight) ∧
    (l ≠ [] → ∃ hd m, heapPop l = some (hd, m) ∧ hd.weight = wAt l 0 ∧
      (∀ x ∈ l, hd.weight ≤ x.weight) ∧ IsMinHeap m ∧
      List.Perm l (hd :: m)) := by
  refine ⟨heapPush_isMinHeap hl v, heapPush_perm l v,
    fun x hx => isMinHeap_root_le_mem hl hx, ?_⟩
  intro hne
  obtain ⟨x, xs, rfl⟩ : ∃ x xs, l = x :: xs := by
    match l, hne with
    | x :: xs, _ => exact ⟨x, xs, rfl⟩
  exact ⟨x, _, heapPop_cons x xs, (wAt_cons_zero x xs).symm,
    heapPop_min hl (heapPop_cons x xs),
    heapPop_isMinHeap hl (heapPop_cons x xs),
    heapPop_perm (heapPop_cons x xs)⟩

/-- Claim C8 witness: push and pop on a concrete three-element heap. -/
theorem claim_C8_witness :
    IsMinHeap [(⟨1, 3⟩ : Vsample ℕ), ⟨2, 5⟩] ∧
    (IsMinHeap (heapPush [(⟨1, 3⟩ : Vsample ℕ), ⟨2, 5⟩] ⟨3, 4⟩) ∧
    List.Perm (heapPush [(⟨1, 3⟩ : Vsample ℕ), ⟨2, 5⟩] ⟨3, 4⟩)
      ([(⟨1, 3⟩ : Vsample ℕ), ⟨2, 5⟩] ++ [⟨3, 4⟩]) ∧
    (∀ x ∈ [(⟨1, 3⟩ : Vsample ℕ), ⟨2, 5⟩],
      wAt [(⟨1, 3⟩ : Vsample ℕ), ⟨2, 5⟩] 0 ≤ x.weight) ∧
    ([(⟨1, 3⟩ : Vsample ℕ), ⟨2, 5⟩] ≠ [] → ∃ hd m,
      heapPop [(⟨1, 3⟩ : Vsample ℕ), ⟨2, 5⟩] = some (hd, m) ∧
      hd.weight = wAt [(⟨1, 3⟩ : Vsample ℕ), ⟨2, 5⟩] 0 ∧
      (∀ x ∈ [(⟨1, 3⟩ : Vsample ℕ), ⟨2, 5⟩], hd.weight ≤ x.weight) ∧
      IsMinHeap m ∧
      List.Perm [(⟨1, 3⟩ : Vsample ℕ), ⟨2, 5⟩] (hd :: m))) :=
  ⟨by decide, claim_C8 [⟨1, 3⟩, ⟨2, 5⟩] ⟨3, 4⟩ (by decide)⟩

/-- Claim C9: the Algorithm R reservoir's `Add` increments `observed`;
while fewer than `capacity` items are buffered it appends; otherwise a
uniform index in `[0, observed)` is drawn (a raw draw reduced modulo the
incremented count) and the slot at that index is replaced exactly when
the index is below `capacity`, the new item being discarded otherwise;
consequently `Size = min(observed, capacity)` after every `Add`. -/
theorem claim_C9 {α : Type} :
    (∀ (s : Simple α) (item : α) (idxRaw : ℕ),
      (s.Add item idxRaw).observed = s.observed + 1 ∧
      (s.Add item idxRaw).capacity = s.capacity ∧
      (s.buffer.length < s.capacity →
        (s.Add item idxRaw).buffer = s.buffer ++ [item]) ∧
      (¬ s.buffer.length < s.capacity →
        (idxRaw % (s.observed + 1) < s.capacity →
          (s.Add item idxRaw).buffer =
            s.buffer.set (idxRaw % (s.observed + 1)) item) ∧
        (¬ idxRaw % (s.observed + 1) < s.capacity →
          (s.Add item idxRaw).buffer = s.buffer))) ∧
    (∀ (capacity : ℕ) (items : List (α × ℕ)),
      (runSimple (simple.New capacity) items).Size =
        min (runSimple (simple.New capacity) items).Count capacity ∧
      (runSimple (simple.New capacity) items).Count = items.length) := by
  constructor
  · intro s item idxRaw
    unfold Simple.Add
    dsimp only
    split
    · rename_i hlt
      have hlt' : s.buffer.length < s.capacity := hlt
      exact ⟨rfl, rfl, fun _ => rfl, fun hcon => absurd hlt' hcon⟩
    · rename_i hge
      have hge' : ¬ s.buffer.length < s.capacity := hge
      split
      · rename_i hidx
        have hidx' : idxRaw % (s.observed + 1) < s.capacity := hidx
        exact ⟨rfl, rfl, fun hcon => absurd hcon hge',
          fun _ => ⟨fun _ => rfl, fun hcon => absurd hidx' hcon⟩⟩
      · rename_i hidx
        have hidx' : ¬ idxRaw % (s.observed + 1) < s.capacity := hidx
        exact ⟨rfl, rfl, fun hcon => absurd hcon hge',
          fun _ => ⟨fun hcon => absurd hcon hidx', fun _ => rfl⟩⟩
  · intro capacity items
    obtain ⟨h1, h2, h3⟩ := runSimple_size items (simple.New capacity)
      (by simp [simple.New])
    constructor
    · show (runSimple (simple.New capacity) items).buffer.length =
        min (runSimple (simple.New capacity) items).observed capacity
      rw [h1, h3]
      rfl
    · show (runSimple (simple.New capacity) items).observed = items.length
      rw [h2]
      exact Nat.zero_add items.length

/-- Claim C9 witness: a full capacity-1 reservoir replaces its slot when
the drawn index is 0. -/
theorem claim_C9_witness :
    (¬ ([9] : List ℕ).length < 1) ∧
    ((⟨1, 1, [9]⟩ : Simple ℕ).Add 5 0).buffer =
      ([9] : List ℕ).set (0 % (1 + 1)) 5 := by
  have h := ((claim_C9 (α := ℕ)).1 ⟨1, 1, [9]⟩ 5 0).2.2.2 (by decide)
  exact ⟨by decide, h.1 (by decide)⟩

/-- Claim C10: `Reset` produces exactly the freshly-constructed state of
the same capacity: `Size`, `TotalCount`, `TotalWeight` and `Tau` are all
zero, the pools are empty, the capacity is kept, and every subsequent
input sequence behaves as on a fresh instance. -/
theorem claim_C10 {α : Type} (s : Varopt α) :
    s.Reset = varopt.New s.capacity ∧
    s.Reset.Size = 0 ∧ s.Reset.TotalCount = 0 ∧ s.Reset.TotalWeight = 0 ∧
    s.Reset.Tau = 0 ∧ s.Reset.L = [] ∧ s.Reset.T = [] ∧ s.Reset.X = [] ∧
    s.Reset.Capacity = s.Capacity ∧
    ∀ inputs, runAdds s.Reset inputs =
      runAdds (varopt.New s.capacity) inputs :=
  ⟨rfl, rfl, rfl, rfl, rfl, rfl, rfl, rfl, rfl, fun _ => rfl⟩
